import Mathlib

/-!
Verification of the Yul `UnusedStoreEliminator` optimiser pass
(`libyul/optimiser/UnusedStoreEliminator.cpp`).

The pass is embedded shallowly over the expression-split straight-line
fragment of Yul on which it operates: statements are expression statements
whose expression is a function call with identifier-or-literal arguments,
plus SSA variable declarations.  Statements are identified by their index
in the program, playing the role of the C++ statement pointers.  External
collaborators (the knowledge base, the SSA value tracker, the side-effect
tables) are modelled from the specification where noted.
-/

namespace UnusedStoreElim

/-- The u256 wrap-around modulus. -/
def W : Nat := 2 ^ 256

/-- `UnusedStoreEliminator::Location` (memory or storage). -/
inductive Location where
  | Memory
  | Storage
deriving DecidableEq, Repr

/-- `SemanticInformation::Effect` / `SideEffects::Effect`. -/
inductive Effect where
  | None
  | Read
  | Write
  | ReadWrite
deriving DecidableEq, Repr

/-- An atomic argument expression: after the expression splitter every call
argument is an identifier or a literal (the pass ignores calls with other
argument shapes anyway). -/
inductive AExpr where
  | ident (name : String)
  | lit (value : Nat)
deriving DecidableEq, Repr

/-- A function call with atomic arguments. -/
structure FunctionCall where
  functionName : String
  arguments : List AExpr
deriving DecidableEq, Repr

/-- An expression: an atom or a function call with atomic arguments. -/
inductive Expr where
  | atom (a : AExpr)
  | call (c : FunctionCall)
deriving DecidableEq, Repr

/-- A statement of the straight-line fragment: an expression statement
holding a function call, or an SSA variable declaration. -/
inductive Stmt where
  | exprStmt (c : FunctionCall)
  | varDecl (name : String) (rhs : Expr)
deriving DecidableEq, Repr

/-- The EVM instructions relevant to this pass. -/
inductive Instr where
  | MSTORE
  | MSTORE8
  | MLOAD
  | SSTORE
  | SLOAD
  | RETURN
  | REVERT
  | STOP
  | RETURNDATACOPY
  | RETURNDATASIZE
  | CALLDATACOPY
  | CODECOPY
  | EXTCODECOPY
  | MSIZE
deriving DecidableEq, Repr

/-- `toEVMInstruction`: resolve a builtin name of the EVM dialect to its
instruction; `none` for user-defined functions. -/
def toEVMInstruction (name : String) : Option Instr :=
  match name with
  | "mstore" => some .MSTORE
  | "mstore8" => some .MSTORE8
  | "mload" => some .MLOAD
  | "sstore" => some .SSTORE
  | "sload" => some .SLOAD
  | "return" => some .RETURN
  | "revert" => some .REVERT
  | "stop" => some .STOP
  | "returndatacopy" => some .RETURNDATACOPY
  | "returndatasize" => some .RETURNDATASIZE
  | "calldatacopy" => some .CALLDATACOPY
  | "codecopy" => some .CODECOPY
  | "extcodecopy" => some .EXTCODECOPY
  | "msize" => some .MSIZE
  | _ => none

namespace SemanticInformation

/-- `SemanticInformation::otherState` for the instructions above. -/
def otherState (i : Instr) : Effect :=
  match i with
  | .RETURNDATACOPY => .Read
  | .RETURNDATASIZE => .Read
  | .EXTCODECOPY => .Read
  | .CODECOPY => .Read
  | _ => .None

/-- `SemanticInformation::storage` for the instructions above. -/
def storage (i : Instr) : Effect :=
  match i with
  | .SSTORE => .Write
  | .SLOAD => .Read
  | _ => .None

/-- `SemanticInformation::memory` for the instructions above. -/
def memory (i : Instr) : Effect :=
  match i with
  | .MSTORE => .Write
  | .MSTORE8 => .Write
  | .MLOAD => .Read
  | .RETURN => .Read
  | .REVERT => .Read
  | .RETURNDATACOPY => .Write
  | .CALLDATACOPY => .Write
  | .CODECOPY => .Write
  | .EXTCODECOPY => .Write
  | .MSIZE => .Read
  | _ => .None

/-- `SemanticInformation::Operation`: one read/write operation descriptor of
an instruction, with parameter indices into the call's argument list or a
constant length. -/
structure OpDescr where
  location : Location
  effect : Effect
  startParameter : Option Nat
  lengthParameter : Option Nat
  lengthConstant : Option Nat
deriving DecidableEq, Repr

/-- `SemanticInformation::readWriteOperations` for the instructions above. -/
def readWriteOperations (i : Instr) : List OpDescr :=
  match i with
  | .SSTORE => [⟨.Storage, .Write, some 0, none, some 1⟩]
  | .SLOAD => [⟨.Storage, .Read, some 0, none, some 1⟩]
  | .MSTORE => [⟨.Memory, .Write, some 0, none, some 32⟩]
  | .MSTORE8 => [⟨.Memory, .Write, some 0, none, some 1⟩]
  | .MLOAD => [⟨.Memory, .Read, some 0, none, some 32⟩]
  | .RETURN => [⟨.Memory, .Read, some 0, some 1, none⟩]
  | .REVERT => [⟨.Memory, .Read, some 0, some 1, none⟩]
  | .RETURNDATACOPY => [⟨.Memory, .Write, some 0, some 2, none⟩]
  | .CALLDATACOPY => [⟨.Memory, .Write, some 0, some 2, none⟩]
  | .CODECOPY => [⟨.Memory, .Write, some 0, some 2, none⟩]
  | .EXTCODECOPY => [⟨.Memory, .Write, some 1, some 3, none⟩]
  | .RETURNDATASIZE => []
  | .MSIZE => []
  | .STOP => []

end SemanticInformation

/-- `ControlFlowSideEffects`: can execution continue past the call, can it
terminate the transaction observably? -/
structure ControlFlowSideEffects where
  canContinue : Bool
  canTerminate : Bool
deriving DecidableEq, Repr

/-- Control-flow side effects of the EVM builtins: `return` and `stop`
terminate, `revert` neither continues nor terminates, everything else
continues. -/
def builtinControlFlow (i : Instr) : ControlFlowSideEffects :=
  match i with
  | .RETURN => ⟨false, true⟩
  | .STOP => ⟨false, true⟩
  | .REVERT => ⟨false, false⟩
  | _ => ⟨true, false⟩

/-- `SideEffects` of a user-defined function, restricted to the two fields
the pass consults (`memory` and `storage`). -/
structure SideEffects where
  memory : Effect
  storage : Effect
deriving DecidableEq, Repr

/-- Variable names for special constants that can never appear in actual
Yul code (`zero`, `one`, `thirtyTwo` in the source). -/
def pseudoZero : String := "@ 0"

/-- The pseudo-symbol for the constant 1. -/
def pseudoOne : String := "@ 1"

/-- The pseudo-symbol for the constant 32. -/
def pseudoThirtyTwo : String := "@ 32"

/-- The environment a run of the pass executes in: the SSA value map
(including the three pseudo-symbols), the side-effect table and the
control-flow side-effect table for user-defined functions, and the
`ignoreMemory` flag. -/
structure Env where
  ssaValues : List (String × Expr)
  functionSideEffects : String → SideEffects
  controlFlowSideEffects : String → ControlFlowSideEffects
  ignoreMemory : Bool

namespace KnowledgeBase

/-- Modelled from the spec: the knowledge oracle's
`valueIfKnownConstant(v) → Option u256` — a symbol bound in the SSA value
map to a literal is known to be that constant (the oracle's further
constant-folding internals are out of scope). -/
def valueIfKnownConstant (env : Env) (v : String) : Option Nat :=
  match env.ssaValues.lookup v with
  | some (.atom (.lit n)) => some (n % W)
  | _ => none

/-- Modelled from the spec: `knownToBeZero(v)` — the symbol is a known
constant equal to zero. -/
def knownToBeZero (env : Env) (v : String) : Bool :=
  valueIfKnownConstant env v == some 0

/-- Modelled from the spec: `knownToBeDifferent(u, v)` — both symbols are
known constants with different values. -/
def knownToBeDifferent (env : Env) (u v : String) : Bool :=
  match valueIfKnownConstant env u, valueIfKnownConstant env v with
  | some a, some b => decide (a ≠ b)
  | _, _ => false

/-- Modelled from the spec: `knownToBeDifferentByAtLeast32(u, v)` — the
u256 difference of the two known constants lies in `[32, 2^256 - 32]`. -/
def knownToBeDifferentByAtLeast32 (env : Env) (u v : String) : Bool :=
  match valueIfKnownConstant env u, valueIfKnownConstant env v with
  | some a, some b => decide (32 ≤ (a + W - b) % W ∧ (a + W - b) % W ≤ W - 32)
  | _, _ => false

/-- Modelled from the spec: `knownToBeEqual(u, v)` — the same symbol, or
two known constants with equal values. -/
def knownToBeEqual (env : Env) (u v : String) : Bool :=
  u == v ||
    match valueIfKnownConstant env u, valueIfKnownConstant env v with
    | some a, some b => decide (a = b)
    | _, _ => false

end KnowledgeBase

/-- `UnusedStoreEliminator::Operation`: a location, an effect and optional
start/length symbols. -/
structure Operation where
  location : Location
  effect : Effect
  start : Option String
  length : Option String
deriving DecidableEq, Repr

/-- `UnusedStoreEliminator::identifierNameIfSSA`: the name of an identifier
argument that is known to the SSA value tracker. -/
def identifierNameIfSSA (env : Env) (e : AExpr) : Option String :=
  match e with
  | .ident name => if (env.ssaValues.lookup name).isSome then some name else none
  | _ => none

/-- Resolve one `SemanticInformation::Operation` descriptor against a
call's argument list (the body of the lambda in
`UnusedStoreEliminator::operationsFromFunctionCall`); a length constant of
1 or 32 becomes the corresponding pseudo-symbol. -/
def resolveOpDescr (env : Env) (args : List AExpr)
    (d : SemanticInformation.OpDescr) : Operation :=
  let start :=
    match d.startParameter with
    | some i => (args.get? i).bind (identifierNameIfSSA env)
    | none => none
  let length0 :=
    match d.lengthParameter with
    | some i => (args.get? i).bind (identifierNameIfSSA env)
    | none => none
  let length :=
    match d.lengthConstant with
    | some 1 => some pseudoOne
    | some 32 => some pseudoThirtyTwo
    | _ => length0
  ⟨d.location, d.effect, start, length⟩

/-- `UnusedStoreEliminator::operationsFromFunctionCall`: the operations a
call performs — for an EVM builtin, the resolved descriptor list; for a
user-defined function, at most one conservative whole-location read per
location with a non-`None` propagated side effect. -/
def operationsFromFunctionCall (env : Env) (c : FunctionCall) : List Operation :=
  match toEVMInstruction c.functionName with
  | some i =>
      (SemanticInformation.readWriteOperations i).map (resolveOpDescr env c.arguments)
  | none =>
      let sideEffects := env.functionSideEffects c.functionName
      (if sideEffects.memory ≠ Effect.None
        then [⟨Location.Memory, Effect.Read, none, none⟩] else []) ++
      (if sideEffects.storage ≠ Effect.None
        then [⟨Location.Storage, Effect.Read, none, none⟩] else [])

/-- The assertion guard in the storage case of `knownUnrelated`: both
operations carry a length symbol whose value is the known constant 1. -/
def storageLengthsOne (env : Env) (op1 op2 : Operation) : Bool :=
  match op1.length, op2.length with
  | some l1, some l2 =>
      KnowledgeBase.valueIfKnownConstant env l1 == some 1 &&
      KnowledgeBase.valueIfKnownConstant env l2 == some 1
  | _, _ => false

/-- The operation's length symbol is present and known to be zero. -/
def lengthKnownZero (env : Env) (op : Operation) : Bool :=
  match op.length with
  | some l => KnowledgeBase.knownToBeZero env l
  | none => false

/-- The forward disjointness check of the memory case of `knownUnrelated`:
`a.start`, `a.length` and `b.start` are known constants with
`a.start + a.length ≤ b.start` and no u256 overflow. -/
def memEndsBefore (env : Env) (a b : Operation) : Bool :=
  match a.start, a.length, b.start with
  | some s1, some l1, some s2 =>
      match KnowledgeBase.valueIfKnownConstant env l1,
            KnowledgeBase.valueIfKnownConstant env s1,
            KnowledgeBase.valueIfKnownConstant env s2 with
      | some length1, some start1, some start2 =>
          decide (start1 ≤ (start1 + length1) % W ∧
            (start1 + length1) % W ≤ start2)
      | _, _, _ => false
  | _, _, _ => false

/-- The small-and-far-apart check of the memory case of `knownUnrelated`:
both lengths are known constants at most 32 and the starts are known to
differ by at least 32. -/
def memBothSmallFar (env : Env) (a b : Operation) : Bool :=
  match a.start, a.length, b.start, b.length with
  | some s1, some l1, some s2, some l2 =>
      match KnowledgeBase.valueIfKnownConstant env l1,
            KnowledgeBase.valueIfKnownConstant env l2 with
      | some length1, some length2 =>
          decide (length1 ≤ 32) && decide (length2 ≤ 32) &&
          KnowledgeBase.knownToBeDifferentByAtLeast32 env s1 s2
      | _, _ => false
  | _, _, _, _ => false

/-- `UnusedStoreEliminator::knownUnrelated`: no byte touched by `op1` is
also touched by `op2`.  `none` models the fatal assertion in the storage
case (both lengths must be known to be the constant 1). -/
def knownUnrelated (env : Env) (op1 op2 : Operation) : Option Bool :=
  if op1.location ≠ op2.location then
    some true
  else if op1.location = Location.Storage then
    match op1.start, op2.start with
    | some s1, some s2 =>
        if storageLengthsOne env op1 op2 then
          some (KnowledgeBase.knownToBeDifferent env s1 s2)
        else none
    | _, _ => some false
  else
    if lengthKnownZero env op1 || lengthKnownZero env op2 then
      some true
    else
      some (memEndsBefore env op1 op2 || memEndsBefore env op2 op1 ||
        memBothSmallFar env op1 op2)

/-- The syntactic-equality branch of `knownCovered`: both start symbols
present and equal, both length symbols present and equal. -/
def syntacticallyEqualRange (covered covering : Operation) : Bool :=
  (covered.start.isSome && covered.start == covering.start) &&
  (covered.length.isSome && covered.length == covering.length)

/-- The equal-start branch of the memory case of `knownCovered`: all four
symbols present, starts known equal, both lengths known constants with
`covered.length ≤ covering.length`. -/
def memCoveredEqualStart (env : Env) (covered covering : Operation) : Bool :=
  match covered.start, covering.start, covered.length, covering.length with
  | some cs, some is, some cl, some il =>
      KnowledgeBase.knownToBeEqual env cs is &&
      (match KnowledgeBase.valueIfKnownConstant env cl,
             KnowledgeBase.valueIfKnownConstant env il with
       | some coveredLength, some coveringLength =>
           decide (coveredLength ≤ coveringLength)
       | _, _ => false)
  | _, _, _, _ => false

/-- The constant-range branch of the memory case of `knownCovered`: all
four values known constants, `covering.start ≤ covered.start`, no u256
overflow on either end, and the covered end within the covering end. -/
def memCoveredConstRange (env : Env) (covered covering : Operation) : Bool :=
  match covered.start, covering.start, covered.length, covering.length with
  | some cs, some is, some cl, some il =>
      match KnowledgeBase.valueIfKnownConstant env cs,
            KnowledgeBase.valueIfKnownConstant env is,
            KnowledgeBase.valueIfKnownConstant env cl,
            KnowledgeBase.valueIfKnownConstant env il with
      | some coveredStart, some coveringStart, some coveredLength,
          some coveringLength =>
          decide (coveringStart ≤ coveredStart ∧
            coveringStart ≤ (coveringStart + coveringLength) % W ∧
            coveredStart ≤ (coveredStart + coveredLength) % W ∧
            (coveredStart + coveredLength) % W ≤
              (coveringStart + coveringLength) % W)
      | _, _, _, _ => false
  | _, _, _, _ => false

/-- `UnusedStoreEliminator::knownCovered`: every byte of `covered` is also
written by `covering` (the source's early returns become a disjunction of
the branch predicates). -/
def knownCovered (env : Env) (covered covering : Operation) : Bool :=
  if covered.location ≠ covering.location then
    false
  else if syntacticallyEqualRange covered covering then
    true
  else if covered.location = Location.Memory then
    lengthKnownZero env covered ||
    memCoveredEqualStart env covered covering ||
    memCoveredConstRange env covered covering
  else
    false

/-- Insert a statement identity into a set (idempotently), mirroring
`std::set::insert`. -/
def setInsert (s : Nat) (l : List Nat) : List Nat :=
  if s ∈ l then l else s :: l

/-- Insert every element of `xs` into `l`. -/
def insertAll (xs l : List Nat) : List Nat :=
  xs.foldr setInsert l

/-- Set difference on statement-identity sets. -/
def setMinus (l r : List Nat) : List Nat :=
  l.filter (fun s => !decide (s ∈ r))

/-- The interpreter state: the two active sets, the global `allStores` and
`usedStores` sets, and the per-statement operation map
(`m_storeOperations`). -/
structure PassState where
  activeMemory : List Nat
  activeStorage : List Nat
  allStores : List Nat
  usedStores : List Nat
  storeOperations : List (Nat × Operation)
deriving DecidableEq, Repr

/-- The empty initial state of a run. -/
def initialState : PassState := ⟨[], [], [], [], []⟩

/-- The active set for a location. -/
def PassState.active (st : PassState) (loc : Location) : List Nat :=
  match loc with
  | .Memory => st.activeMemory
  | .Storage => st.activeStorage

/-- Replace the active set for a location. -/
def PassState.setActive (st : PassState) (loc : Location) (l : List Nat) :
    PassState :=
  match loc with
  | .Memory => { st with activeMemory := l }
  | .Storage => { st with activeStorage := l }

/-- `UnusedStoreEliminator::markActiveAsUsed`: move every member of the
selected active sets into `usedStores` and clear those sets. -/
def markActiveAsUsed (onlyLocation : Option Location) (st : PassState) :
    PassState :=
  let st1 :=
    if onlyLocation = none ∨ onlyLocation = some Location.Memory then
      { st with usedStores := insertAll st.activeMemory st.usedStores,
                activeMemory := [] }
    else st
  if onlyLocation = none ∨ onlyLocation = some Location.Storage then
    { st1 with usedStores := insertAll st.activeStorage st1.usedStores,
               activeStorage := [] }
  else st1

/-- `UnusedStoreEliminator::clearActive`: empty the selected active sets
without touching `usedStores`. -/
def clearActive (onlyLocation : Option Location) (st : PassState) :
    PassState :=
  let st1 :=
    if onlyLocation = none ∨ onlyLocation = some Location.Memory then
      { st with activeMemory := [] }
    else st
  if onlyLocation = none ∨ onlyLocation = some Location.Storage then
    { st1 with activeStorage := [] }
  else st1

/-- The loop body of `UnusedStoreEliminator::applyOperation` for one active
statement: does the incoming operation mark it used, and does it leave the
active set?  `none` models a fatal assertion (an unrecorded statement or
the storage assertion of `knownUnrelated`). -/
def applyToStore (env : Env) (op : Operation) (storeOps : List (Nat × Operation))
    (s : Nat) : Option (Bool × Bool) :=
  match storeOps.lookup s with
  | none => none
  | some storeOperation =>
      if op.effect = Effect.Read then
        match knownUnrelated env storeOperation op with
        | none => none
        | some unrelated =>
            if unrelated then some (false, false) else some (true, true)
      else if op.effect = Effect.Write then
        some (false, knownCovered env storeOperation op)
      else
        some (false, false)

/-- Process an active set against one operation, collecting the statements
to be marked used and the statements to be removed from the set. -/
def classifyActive (env : Env) (op : Operation)
    (storeOps : List (Nat × Operation)) :
    List Nat → Option (List Nat × List Nat)
  | [] => some ([], [])
  | s :: rest =>
      match applyToStore env op storeOps s, classifyActive env op storeOps rest with
      | some (use, remove), some (uses, removes) =>
          some (if use then s :: uses else uses,
                if remove then s :: removes else removes)
      | _, _ => none

/-- Replace the used set. -/
def PassState.setUsed (st : PassState) (l : List Nat) : PassState :=
  { st with usedStores := l }

/-- `UnusedStoreEliminator::applyOperation`: apply one operation of a call
to the active set of its location. -/
def applyOperation (env : Env) (op : Operation) (st : PassState) :
    Option PassState :=
  let active := st.active op.location
  match classifyActive env op st.storeOperations active with
  | none => none
  | some (toUse, toRemove) =>
      some ((st.setActive op.location (setMinus active toRemove)).setUsed
        (insertAll toUse st.usedStores))

/-- Apply the whole operation list of a call, in order. -/
def applyOperationList (env : Env) (ops : List Operation) (st : PassState) :
    Option PassState :=
  match ops with
  | [] => some st
  | op :: rest =>
      match applyOperation env op st with
      | none => none
      | some st1 => applyOperationList env rest st1

/-- Look up the control-flow side effects of a callee: the builtin table
for EVM builtins, the collector's table for user-defined functions. -/
def controlFlowOf (env : Env) (name : String) : ControlFlowSideEffects :=
  match toEVMInstruction name with
  | some i => builtinControlFlow i
  | none => env.controlFlowSideEffects name

/-- The control-flow part of `UnusedStoreEliminator::operator()(FunctionCall)`:
a callee that can terminate marks active storage used; a callee that cannot
continue clears active memory, and also clears active storage when it
cannot terminate either. -/
def applyControlFlow (sideEffects : ControlFlowSideEffects) (st : PassState) :
    PassState :=
  let st1 :=
    if sideEffects.canTerminate then markActiveAsUsed (some .Storage) st else st
  if !sideEffects.canContinue then
    let st2 := clearActive (some .Memory) st1
    if !sideEffects.canTerminate then clearActive (some .Storage) st2 else st2
  else st1

/-- `UnusedStoreEliminator::operator()(FunctionCall)`: traverse the call
(arguments are atomic, so the base traversal has no effect), apply the
callee's operations, then its control-flow side effects. -/
def visitFunctionCall (env : Env) (c : FunctionCall) (st : PassState) :
    Option PassState :=
  match applyOperationList env (operationsFromFunctionCall env c) st with
  | none => none
  | some st1 => some (applyControlFlow (controlFlowOf env c.functionName) st1)

/-- The hard-coded memory-write instruction list of
`UnusedStoreEliminator::visit`. -/
def isMemoryWriteInstr (i : Instr) : Bool :=
  i == Instr.EXTCODECOPY || i == Instr.CODECOPY || i == Instr.CALLDATACOPY ||
  i == Instr.RETURNDATACOPY || i == Instr.MSTORE || i == Instr.MSTORE8

/-- The semantic-information classification of a candidate store in
`UnusedStoreEliminator::visit`: no other-state write, and a storage write
or (when memory is tracked) a memory write. -/
def isCandidateForRemoval (env : Env) (i : Instr) : Bool :=
  SemanticInformation.otherState i != Effect.Write &&
    (SemanticInformation.storage i == Effect.Write ||
      (!env.ignoreMemory && SemanticInformation.memory i == Effect.Write))

/-- The `returndatacopy` shape test of `UnusedStoreEliminator::visit`: the
start offset is an SSA symbol known to be zero and the length is an SSA
variable whose defining expression is a call to `returndatasize`.  (An
argument list shorter than three would throw in the source; it fails the
shape test here.) -/
def returndatacopyRemovable (env : Env) (c : FunctionCall) : Bool :=
  match (c.arguments.get? 1).bind (identifierNameIfSSA env),
        (c.arguments.get? 2).bind (identifierNameIfSSA env) with
  | some startOffset, some length =>
      KnowledgeBase.knownToBeZero env startOffset &&
      (match env.ssaValues.lookup length with
       | some (.call lengthCall) =>
           toEVMInstruction lengthCall.functionName == some Instr.RETURNDATASIZE
       | _ => false)
  | _, _ => false

/-- Record a classified candidate store: insert the statement into
`allStores` and the active set of its operation's location, and record
the operation in `storeOperations`. -/
def recordStore (idx : Nat) (op : Operation) (st : PassState) : PassState :=
  let st1 := { st with allStores := setInsert idx st.allStores }
  let st2 := st1.setActive op.location (setInsert idx (st1.active op.location))
  { st2 with storeOperations := (idx, op) :: st2.storeOperations }

/-- The candidate-store classification part of
`UnusedStoreEliminator::visit` (everything after the base traversal):
classify the statement and, when it is a candidate, record it in
`allStores`, the active set of its location, and `storeOperations`.
`none` models the two fatal assertions (classification consistency, and
exactly one operation per candidate).  In this atomic-argument fragment
the argument-purity check of the source always passes. -/
def visitCandidate (env : Env) (idx : Nat) (c : FunctionCall)
    (st : PassState) : Option PassState :=
  match toEVMInstruction c.functionName with
  | none => some st
  | some i =>
      let isStorageWrite := i == Instr.SSTORE
      let isMemoryWrite := isMemoryWriteInstr i
      let isCandidate := isCandidateForRemoval env i
      if isCandidate != (isStorageWrite || (!env.ignoreMemory && isMemoryWrite))
      then none
      else if isCandidate then
        if i = Instr.RETURNDATACOPY ∧ ¬returndatacopyRemovable env c then
          some st
        else
          match operationsFromFunctionCall env c with
          | [op] => some (recordStore idx op st)
          | _ => none
      else some st

/-- Traverse an expression: atoms have no effect, calls are visited. -/
def visitExprOnly (env : Env) (e : Expr) (st : PassState) : Option PassState :=
  match e with
  | .atom _ => some st
  | .call c => visitFunctionCall env c st

/-- `UnusedStoreEliminator::visit` on one statement (identified by its
index): the base traversal first (which applies the contained call's
operations and control-flow effects), then candidate classification for
expression statements. -/
def visitStmt (env : Env) (st : PassState) (is : Nat × Stmt) :
    Option PassState :=
  match is.2 with
  | .varDecl _ rhs => visitExprOnly env rhs st
  | .exprStmt c =>
      match visitFunctionCall env c st with
      | none => none
      | some st1 => visitCandidate env is.1 c st1

/-- Interpret a list of indexed statements in order. -/
def interpretStmts (env : Env) :
    List (Nat × Stmt) → PassState → Option PassState
  | [], st => some st
  | is :: rest, st =>
      match visitStmt env st is with
      | none => none
      | some st1 => interpretStmts env rest st1

/-- Does an expression contain a call to `msize`? -/
def exprContainsMSize (e : Expr) : Bool :=
  match e with
  | .call c => toEVMInstruction c.functionName == some Instr.MSIZE
  | _ => false

/-- Does a statement contain a call to `msize`? -/
def stmtContainsMSize (s : Stmt) : Bool :=
  match s with
  | .exprStmt c => toEVMInstruction c.functionName == some Instr.MSIZE
  | .varDecl _ rhs => exprContainsMSize rhs

/-- `MSizeFinder::containsMSize` on the straight-line fragment. -/
def containsMSize (prog : List Stmt) : Bool :=
  prog.any stmtContainsMSize

/-- Number of declarations of a name in the program. -/
def declCount (prog : List Stmt) (n : String) : Nat :=
  (prog.filter fun s =>
    match s with
    | .varDecl m _ => m == n
    | _ => false).length

/-- Modelled from the spec: the external `SSAValueTracker` — the value map
of the SSA variables, i.e. of the variables declared exactly once (the
fragment has no assignments). -/
def ssaValuesOf (prog : List Stmt) : List (String × Expr) :=
  prog.filterMap fun s =>
    match s with
    | .varDecl n rhs => if declCount prog n = 1 then some (n, rhs) else none
    | _ => none

/-- Bind the three pseudo-symbols in front of the value map (the
assignments after the loop in `UnusedStoreEliminator::run`; a later
binding shadows any earlier one). -/
def injectPseudo (vals : List (String × Expr)) : List (String × Expr) :=
  (pseudoZero, .atom (.lit 0)) :: (pseudoOne, .atom (.lit 1)) ::
    (pseudoThirtyTwo, .atom (.lit 32)) :: vals

/-- Pair each statement with its identity (its index in the program),
starting from `k`. -/
def enumerate (k : Nat) : List Stmt → List (Nat × Stmt)
  | [] => []
  | s :: rest => (k, s) :: enumerate (k + 1) rest

/-- The environment `UnusedStoreEliminator::run` constructs for a program,
given the two external side-effect tables for user-defined functions. -/
def envOf (funSE : String → SideEffects)
    (funCF : String → ControlFlowSideEffects) (prog : List Stmt) : Env :=
  ⟨injectPseudo (ssaValuesOf prog), funSE, funCF, containsMSize prog⟩

/-- `UnusedStoreEliminator::run`: interpret the program from the empty
state, then finalize — clear active memory when the dialect provides
object access and mark it used otherwise, and mark active storage used
unconditionally. -/
def runPass (providesObjectAccess : Bool) (funSE : String → SideEffects)
    (funCF : String → ControlFlowSideEffects) (prog : List Stmt) :
    Option PassState :=
  let env := envOf funSE funCF prog
  match interpretStmts env (enumerate 0 prog) initialState with
  | none => none
  | some st =>
      let st1 :=
        if providesObjectAccess then clearActive (some .Memory) st
        else markActiveAsUsed (some .Memory) st
      some (markActiveAsUsed (some .Storage) st1)

/-- The statement identities handed to the `StatementRemover`:
`allStores − usedStores`. -/
def removedStatements (providesObjectAccess : Bool)
    (funSE : String → SideEffects) (funCF : String → ControlFlowSideEffects)
    (prog : List Stmt) : Option (List Nat) :=
  (runPass providesObjectAccess funSE funCF prog).map fun st =>
    setMinus st.allStores st.usedStores

/-- A user-function side-effect table for programs that call no
user-defined functions. -/
def noFunSE : String → SideEffects := fun _ => ⟨Effect.None, Effect.None⟩

/-- A control-flow table for programs that call no user-defined
functions. -/
def noFunCF : String → ControlFlowSideEffects := fun _ => ⟨true, false⟩

/-- The program `mstore(0, 1) mstore(0, 2) return(0, 32)` with literal
arguments, exactly as written. -/
def progLiteralStores : List Stmt :=
  [.exprStmt ⟨"mstore", [.lit 0, .lit 1]⟩,
   .exprStmt ⟨"mstore", [.lit 0, .lit 2]⟩,
   .exprStmt ⟨"return", [.lit 0, .lit 32]⟩]

/-- The program `let z := 0  mstore(z, 1) mstore(z, 2) return(z, 32)`:
the store offsets given as an SSA variable known to the value tracker. -/
def progSSAStores : List Stmt :=
  [.varDecl "z" (.atom (.lit 0)),
   .exprStmt ⟨"mstore", [.ident "z", .lit 1]⟩,
   .exprStmt ⟨"mstore", [.ident "z", .lit 2]⟩,
   .exprStmt ⟨"return", [.ident "z", .lit 32]⟩]

/-- The program `let z := 0  returndatacopy(z, z, 32) stop()`: a
`returndatacopy` whose length is not defined by `returndatasize`. -/
def progBadReturndatacopy : List Stmt :=
  [.varDecl "z" (.atom (.lit 0)),
   .exprStmt ⟨"returndatacopy", [.ident "z", .ident "z", .lit 32]⟩,
   .exprStmt ⟨"stop", []⟩]

/-- The program `let m := msize()  let k := 5  sstore(k, 1) sstore(k, 2)
stop()`: a program containing `msize` in which a storage store is still
removed. -/
def progMsizeStorage : List Stmt :=
  [.varDecl "m" (.call ⟨"msize", []⟩),
   .varDecl "k" (.atom (.lit 5)),
   .exprStmt ⟨"sstore", [.ident "k", .lit 1]⟩,
   .exprStmt ⟨"sstore", [.ident "k", .lit 2]⟩,
   .exprStmt ⟨"stop", []⟩]

/-- An environment over the empty program: only the pseudo-symbol
bindings. -/
def env0 : Env := envOf noFunSE noFunCF []

/-- The data-model invariants of the active, used and all-stores sets. -/
def stateInvariants (st : PassState) : Prop :=
  st.activeMemory ⊆ st.allStores ∧
  st.activeStorage ⊆ st.allStores ∧
  (∀ s, s ∈ st.activeMemory → s ∉ st.activeStorage) ∧
  st.usedStores ⊆ st.allStores

/-- Every active statement has a recorded store operation at its location,
and recorded storage operations carry the pseudo-length `@ 1`. -/
def opsInvariant (st : PassState) : Prop :=
  (∀ s ∈ st.activeMemory,
    ∃ op, st.storeOperations.lookup s = some op ∧ op.location = .Memory) ∧
  (∀ s ∈ st.activeStorage,
    ∃ op, st.storeOperations.lookup s = some op ∧ op.location = .Storage ∧
      op.length = some pseudoOne)

/-- Statement identities recorded so far are below the next index. -/
def boundedStores (k : Nat) (st : PassState) : Prop :=
  (∀ s ∈ st.allStores, s < k) ∧ (∀ p ∈ st.storeOperations, p.1 < k)

/-- The intermediate state of a run after the first `n` statements. -/
def stateAfter (funSE : String → SideEffects)
    (funCF : String → ControlFlowSideEffects) (prog : List Stmt) (n : Nat) :
    Option PassState :=
  interpretStmts (envOf funSE funCF prog) ((enumerate 0 prog).take n)
    initialState

theorem mem_setInsert {s a : Nat} {l : List Nat} :
    s ∈ setInsert a l ↔ s = a ∨ s ∈ l := by
  unfold setInsert
  split
  · constructor
    · exact Or.inr
    · rintro (rfl | h) <;> assumption
  · simp [List.mem_cons]

theorem mem_insertAll {s : Nat} {xs l : List Nat} :
    s ∈ insertAll xs l ↔ s ∈ xs ∨ s ∈ l := by
  induction xs with
  | nil => simp [insertAll]
  | cons a xs ih =>
      simp only [insertAll, List.foldr_cons, List.mem_cons]
      rw [show xs.foldr setInsert l = insertAll xs l from rfl] at *
      rw [mem_setInsert, ih]
      tauto

theorem mem_setMinus {s : Nat} {l r : List Nat} :
    s ∈ setMinus l r ↔ s ∈ l ∧ s ∉ r := by
  unfold setMinus
  rw [List.mem_filter]
  simp

/-- C1 counterexample: on the program `mstore(0, 1) mstore(0, 2)
return(0, 32)` written with literal arguments, the pass removes nothing
(with or without object access): the literal store offsets are not SSA
symbols, so the second `mstore` does not cover the first one. -/
theorem c1_literal_program_removes_nothing :
    removedStatements true noFunSE noFunCF progLiteralStores = some [] ∧
    removedStatements false noFunSE noFunCF progLiteralStores = some [] := by
  constructor <;> rfl

/-- C1 amended: on `let z := 0  mstore(z, 1) mstore(z, 2) return(z, 32)`,
where the store offset is an SSA variable known to the value tracker, the
pass removes exactly the first `mstore` (statement 1) and keeps the
second. -/
theorem c1_ssa_program_removes_first_mstore :
    removedStatements true noFunSE noFunCF progSSAStores = some [1] := by
  rfl

/-- C5 counterexample: `knownCovered` is not reflexive — an operation with
neither a start nor a length symbol is not known to be covered by itself
(every branch needs a start symbol or a known-zero length). -/
theorem c5_not_reflexive_without_start :
    knownCovered env0 ⟨.Memory, .Write, none, none⟩
      ⟨.Memory, .Write, none, none⟩ = false := by
  rfl

/-- C5 amended: `knownCovered(a, a)` holds for every operation whose start
and length symbols are both present (the syntactic-equality branch).  An
operation with a known-zero length is also self-covered through the
length-zero branch; only operations outside both branches, such as the
counterexample's, fail reflexivity. -/
theorem c5_reflexive_with_start_and_length (env : Env) (a : Operation)
    (h1 : a.start.isSome = true) (h2 : a.length.isSome = true) :
    knownCovered env a a = true := by
  have hs : syntacticallyEqualRange a a = true := by
    unfold syntacticallyEqualRange
    simp [h1, h2]
  unfold knownCovered
  simp [hs]

/-- C5 witness: the amended reflexivity at a concrete operation. -/
theorem c5_reflexive_witness :
    (Operation.mk .Memory .Write (some "s") (some "l")).start.isSome = true ∧
    (Operation.mk .Memory .Write (some "s") (some "l")).length.isSome = true ∧
    knownCovered env0 ⟨.Memory, .Write, some "s", some "l"⟩
      ⟨.Memory, .Write, some "s", some "l"⟩ = true :=
  ⟨rfl, rfl,
    c5_reflexive_with_start_and_length env0
      ⟨.Memory, .Write, some "s", some "l"⟩ rfl rfl⟩

/-- C6 counterexample: for a memory operation whose length is known to be
zero, `knownCovered` and `knownUnrelated` both hold, so coverage does not
exclude unrelatedness. -/
theorem c6_zero_length_covered_and_unrelated :
    knownCovered env0 ⟨.Memory, .Write, some pseudoZero, some pseudoZero⟩
      ⟨.Memory, .Write, some pseudoZero, some pseudoOne⟩ = true ∧
    knownUnrelated env0 ⟨.Memory, .Write, some pseudoZero, some pseudoZero⟩
      ⟨.Memory, .Write, some pseudoZero, some pseudoOne⟩ = some true := by
  constructor <;> rfl

theorem classifyActive_all_hit {env : Env} {op : Operation}
    {storeOps : List (Nat × Operation)} {l : List Nat}
    (h : ∀ s ∈ l, applyToStore env op storeOps s = some (true, true)) :
    classifyActive env op storeOps l = some (l, l) := by
  induction l with
  | nil => rfl
  | cons a l ih =>
      have ha := h a (List.mem_cons_self a l)
      have hl := ih fun s hs => h s (List.mem_cons_of_mem a hs)
      simp [classifyActive, ha, hl]

theorem W_pos : 0 < W := by
  unfold W
  positivity

theorem valueIfKnownConstant_lt {env : Env} {v : String} {x : Nat}
    (h : KnowledgeBase.valueIfKnownConstant env v = some x) : x < W := by
  unfold KnowledgeBase.valueIfKnownConstant at h
  split at h
  · cases h
    exact Nat.mod_lt _ W_pos
  · cases h

theorem no_overflow_sum {x y : Nat} (hx : x < W) (hy : y < W)
    (h : x ≤ (x + y) % W) : (x + y) % W = x + y := by
  rcases Nat.lt_or_ge (x + y) W with hlt | hge
  · exact Nat.mod_eq_of_lt hlt
  · exfalso
    have h2 : (x + y) % W = x + y - W := by
      rw [Nat.mod_eq_sub_mod hge, Nat.mod_eq_of_lt (by omega)]
    omega

theorem knownToBeDifferent_self (env : Env) (s : String) :
    KnowledgeBase.knownToBeDifferent env s s = false := by
  unfold KnowledgeBase.knownToBeDifferent
  cases KnowledgeBase.valueIfKnownConstant env s <;> simp

theorem diffByAtLeast32_near {env : Env} {u v : String} {S1 S2 : Nat}
    (hu : KnowledgeBase.valueIfKnownConstant env u = some S1)
    (hv : KnowledgeBase.valueIfKnownConstant env v = some S2)
    (hle : S2 ≤ S1) (hlt : S1 - S2 < 32) :
    KnowledgeBase.knownToBeDifferentByAtLeast32 env u v = false := by
  have hS1 : S1 < W := valueIfKnownConstant_lt hu
  unfold KnowledgeBase.knownToBeDifferentByAtLeast32
  rw [hu, hv]
  have hmod : (S1 + W - S2) % W = S1 - S2 := by
    rw [show S1 + W - S2 = W + (S1 - S2) by omega, Nat.add_mod_left,
      Nat.mod_eq_of_lt (by omega)]
  simp only [hmod, decide_eq_false_iff_not]
  rintro ⟨h32, -⟩
  omega

theorem diffByAtLeast32_self (env : Env) (s : String) :
    KnowledgeBase.knownToBeDifferentByAtLeast32 env s s = false := by
  unfold KnowledgeBase.knownToBeDifferentByAtLeast32
  cases h : KnowledgeBase.valueIfKnownConstant env s with
  | none => rfl
  | some x =>
      show decide (32 ≤ (x + W - x) % W ∧ (x + W - x) % W ≤ W - 32) = false
      rw [show x + W - x = W by omega, Nat.mod_self]
      simp

theorem knownToBeEqual_inv {env : Env} {u v : String}
    (h : KnowledgeBase.knownToBeEqual env u v = true) :
    u = v ∨ ∃ x, KnowledgeBase.valueIfKnownConstant env u = some x ∧
      KnowledgeBase.valueIfKnownConstant env v = some x := by
  unfold KnowledgeBase.knownToBeEqual at h
  rw [Bool.or_eq_true] at h
  rcases h with h | h
  · exact Or.inl (by simpa using h)
  · right
    rcases hu : KnowledgeBase.valueIfKnownConstant env u with _ | x <;>
      rcases hv : KnowledgeBase.valueIfKnownConstant env v with _ | y <;>
      rw [hu, hv] at h <;> simp_all

theorem length_value_ne_zero {env : Env} {a : Operation} {l : String} {L : Nat}
    (ha : lengthKnownZero env a = false) (hl : a.length = some l)
    (hv : KnowledgeBase.valueIfKnownConstant env l = some L) : L ≠ 0 := by
  intro h0
  subst h0
  have h1 : lengthKnownZero env a = true := by
    unfold lengthKnownZero
    rw [hl]
    show KnowledgeBase.knownToBeZero env l = true
    unfold KnowledgeBase.knownToBeZero
    simp [hv]
  rw [ha] at h1
  exact Bool.noConfusion h1

theorem syntacticallyEqualRange_inv {a b : Operation}
    (h : syntacticallyEqualRange a b = true) :
    ∃ s l, a.start = some s ∧ b.start = some s ∧
      a.length = some l ∧ b.length = some l := by
  unfold syntacticallyEqualRange at h
  rcases hsa : a.start with _ | s <;> rw [hsa] at h
  · simp at h
  · rcases hla : a.length with _ | l <;> rw [hla] at h
    · simp at h
    · simp only [Bool.and_eq_true, beq_iff_eq] at h
      exact ⟨s, l, rfl, h.1.2.symm, rfl, h.2.2.symm⟩

theorem memEndsBefore_inv {env : Env} {a b : Operation}
    (h : memEndsBefore env a b = true) :
    ∃ sa la sb S1 L1 S2, a.start = some sa ∧ a.length = some la ∧
      b.start = some sb ∧
      KnowledgeBase.valueIfKnownConstant env la = some L1 ∧
      KnowledgeBase.valueIfKnownConstant env sa = some S1 ∧
      KnowledgeBase.valueIfKnownConstant env sb = some S2 ∧
      S1 ≤ (S1 + L1) % W ∧ (S1 + L1) % W ≤ S2 := by
  unfold memEndsBefore at h
  rcases hsa : a.start with _ | sa <;> rw [hsa] at h <;> try simp at h
  rcases hla : a.length with _ | la <;> rw [hla] at h <;> try simp at h
  rcases hsb : b.start with _ | sb <;> rw [hsb] at h <;> try simp at h
  rcases hL : KnowledgeBase.valueIfKnownConstant env la with _ | L1 <;>
    rw [hL] at h <;> try simp at h
  rcases hS1 : KnowledgeBase.valueIfKnownConstant env sa with _ | S1 <;>
    rw [hS1] at h <;> try simp at h
  rcases hS2 : KnowledgeBase.valueIfKnownConstant env sb with _ | S2 <;>
    rw [hS2] at h <;> try simp at h
  exact ⟨sa, la, sb, S1, L1, S2, rfl, rfl, rfl, hL, hS1, hS2, h.1, h.2⟩

theorem memBothSmallFar_inv {env : Env} {a b : Operation}
    (h : memBothSmallFar env a b = true) :
    ∃ sa la sb lb L1 L2, a.start = some sa ∧ a.length = some la ∧
      b.start = some sb ∧ b.length = some lb ∧
      KnowledgeBase.valueIfKnownConstant env la = some L1 ∧
      KnowledgeBase.valueIfKnownConstant env lb = some L2 ∧
      L1 ≤ 32 ∧ L2 ≤ 32 ∧
      KnowledgeBase.knownToBeDifferentByAtLeast32 env sa sb = true := by
  unfold memBothSmallFar at h
  rcases hsa : a.start with _ | sa <;> rw [hsa] at h <;> try simp at h
  rcases hla : a.length with _ | la <;> rw [hla] at h <;> try simp at h
  rcases hsb : b.start with _ | sb <;> rw [hsb] at h <;> try simp at h
  rcases hlb : b.length with _ | lb <;> rw [hlb] at h <;> try simp at h
  rcases hL1 : KnowledgeBase.valueIfKnownConstant env la with _ | L1 <;>
    rw [hL1] at h <;> try simp at h
  rcases hL2 : KnowledgeBase.valueIfKnownConstant env lb with _ | L2 <;>
    rw [hL2] at h <;> try simp at h
  exact ⟨sa, la, sb, lb, L1, L2, rfl, rfl, rfl, rfl, hL1, hL2,
    h.1.1, h.1.2, h.2⟩

theorem memCoveredEqualStart_inv {env : Env} {a b : Operation}
    (h : memCoveredEqualStart env a b = true) :
    ∃ cs is cl il A B, a.start = some cs ∧ b.start = some is ∧
      a.length = some cl ∧ b.length = some il ∧
      KnowledgeBase.knownToBeEqual env cs is = true ∧
      KnowledgeBase.valueIfKnownConstant env cl = some A ∧
      KnowledgeBase.valueIfKnownConstant env il = some B ∧ A ≤ B := by
  unfold memCoveredEqualStart at h
  rcases hsa : a.start with _ | cs <;> rw [hsa] at h <;> try simp at h
  rcases hsb : b.start with _ | is <;> rw [hsb] at h <;> try simp at h
  rcases hla : a.length with _ | cl <;> rw [hla] at h <;> try simp at h
  rcases hlb : b.length with _ | il <;> rw [hlb] at h <;> try simp at h
  rcases hA : KnowledgeBase.valueIfKnownConstant env cl with _ | A <;>
    rw [hA] at h <;> try simp at h
  rcases hB : KnowledgeBase.valueIfKnownConstant env il with _ | B <;>
    rw [hB] at h <;> try simp at h
  exact ⟨cs, is, cl, il, A, B, rfl, rfl, rfl, rfl, h.1, hA, hB, h.2⟩

theorem memCoveredConstRange_inv {env : Env} {a b : Operation}
    (h : memCoveredConstRange env a b = true) :
    ∃ cs is cl il S1 S2 A B, a.start = some cs ∧ b.start = some is ∧
      a.length = some cl ∧ b.length = some il ∧
      KnowledgeBase.valueIfKnownConstant env cs = some S1 ∧
      KnowledgeBase.valueIfKnownConstant env is = some S2 ∧
      KnowledgeBase.valueIfKnownConstant env cl = some A ∧
      KnowledgeBase.valueIfKnownConstant env il = some B ∧
      S2 ≤ S1 ∧ S2 ≤ (S2 + B) % W ∧ S1 ≤ (S1 + A) % W ∧
      (S1 + A) % W ≤ (S2 + B) % W := by
  unfold memCoveredConstRange at h
  rcases hsa : a.start with _ | cs <;> rw [hsa] at h <;> try simp at h
  rcases hsb : b.start with _ | is <;> rw [hsb] at h <;> try simp at h
  rcases hla : a.length with _ | cl <;> rw [hla] at h <;> try simp at h
  rcases hlb : b.length with _ | il <;> rw [hlb] at h <;> try simp at h
  rcases hS1 : KnowledgeBase.valueIfKnownConstant env cs with _ | S1 <;>
    rw [hS1] at h <;> try simp at h
  rcases hS2 : KnowledgeBase.valueIfKnownConstant env is with _ | S2 <;>
    rw [hS2] at h <;> try simp at h
  rcases hA : KnowledgeBase.valueIfKnownConstant env cl with _ | A <;>
    rw [hA] at h <;> try simp at h
  rcases hB : KnowledgeBase.valueIfKnownConstant env il with _ | B <;>
    rw [hB] at h <;> try simp at h
  exact ⟨cs, is, cl, il, S1, S2, A, B, rfl, rfl, rfl, rfl, hS1, hS2, hA, hB,
    h.1, h.2.1, h.2.2.1, h.2.2.2⟩

theorem applyControlFlow_eq (cc ct : Bool) (st : PassState) :
    applyControlFlow ⟨cc, ct⟩ st =
      { st with
        usedStores :=
          if ct then insertAll st.activeStorage st.usedStores
          else st.usedStores,
        activeStorage := if ct || !cc then [] else st.activeStorage,
        activeMemory := if !cc then [] else st.activeMemory } := by
  cases cc <;> cases ct <;> rfl

theorem classifyActive_sub {env : Env} {op : Operation}
    {storeOps : List (Nat × Operation)} {l u r : List Nat}
    (h : classifyActive env op storeOps l = some (u, r)) :
    (∀ s, s ∈ u → s ∈ l) ∧ (∀ s, s ∈ r → s ∈ l) := by
  induction l generalizing u r with
  | nil =>
      cases Option.some.inj h
      simp
  | cons a l ih =>
      unfold classifyActive at h
      rcases ha : applyToStore env op storeOps a with _ | ⟨use, remove⟩ <;>
        rcases hc : classifyActive env op storeOps l with _ | ⟨us, rs⟩ <;>
        rw [ha, hc] at h <;> try exact Option.noConfusion h
      cases Option.some.inj h
      obtain ⟨ihu, ihr⟩ := ih hc
      refine ⟨?_, ?_⟩ <;> intro s hs
      · cases use with
        | false => exact List.mem_cons_of_mem a (ihu s (by simpa using hs))
        | true =>
            rcases List.mem_cons.mp (by simpa using hs) with heq | hs'
            · simp [heq]
            · exact List.mem_cons_of_mem a (ihu s hs')
      · cases remove with
        | false => exact List.mem_cons_of_mem a (ihr s (by simpa using hs))
        | true =>
            rcases List.mem_cons.mp (by simpa using hs) with heq | hs'
            · simp [heq]
            · exact List.mem_cons_of_mem a (ihr s hs')

theorem applyOperation_spec {env : Env} {op : Operation} {st st2 : PassState}
    (h : applyOperation env op st = some st2) :
    st2.allStores = st.allStores ∧
    st2.storeOperations = st.storeOperations ∧
    (∀ s, s ∈ st2.activeMemory → s ∈ st.activeMemory) ∧
    (∀ s, s ∈ st2.activeStorage → s ∈ st.activeStorage) ∧
    (∀ s, s ∈ st.usedStores → s ∈ st2.usedStores) ∧
    (∀ s, s ∈ st2.usedStores →
      s ∈ st.usedStores ∨ s ∈ st.activeMemory ∨ s ∈ st.activeStorage) := by
  simp only [applyOperation] at h
  rcases hc : classifyActive env op st.storeOperations (st.active op.location)
      with _ | ⟨u, r⟩ <;> rw [hc] at h
  · exact Option.noConfusion h
  · cases Option.some.inj h
    obtain ⟨hu, hr⟩ := classifyActive_sub hc
    rcases hl : op.location with _ | _ <;> rw [hl] at hu hr <;>
      refine ⟨rfl, rfl, ?_, ?_, ?_, ?_⟩ <;> intro s hs
    · exact (mem_setMinus.mp hs).1
    · exact hs
    · exact mem_insertAll.mpr (Or.inr hs)
    · rcases mem_insertAll.mp hs with hs' | hs'
      · exact Or.inr (Or.inl (hu s hs'))
      · exact Or.inl hs'
    · exact hs
    · exact (mem_setMinus.mp hs).1
    · exact mem_insertAll.mpr (Or.inr hs)
    · rcases mem_insertAll.mp hs with hs' | hs'
      · exact Or.inr (Or.inr (hu s hs'))
      · exact Or.inl hs'

theorem applyOperationList_spec {env : Env} {ops : List Operation}
    {st st2 : PassState}
    (h : applyOperationList env ops st = some st2) :
    st2.allStores = st.allStores ∧
    st2.storeOperations = st.storeOperations ∧
    (∀ s, s ∈ st2.activeMemory → s ∈ st.activeMemory) ∧
    (∀ s, s ∈ st2.activeStorage → s ∈ st.activeStorage) ∧
    (∀ s, s ∈ st.usedStores → s ∈ st2.usedStores) ∧
    (∀ s, s ∈ st2.usedStores →
      s ∈ st.usedStores ∨ s ∈ st.activeMemory ∨ s ∈ st.activeStorage) := by
  induction ops generalizing st with
  | nil =>
      cases Option.some.inj h
      exact ⟨rfl, rfl, fun s hs => hs, fun s hs => hs, fun s hs => hs,
        fun s hs => Or.inl hs⟩
  | cons op ops ih =>
      unfold applyOperationList at h
      rcases h1 : applyOperation env op st with _ | st1 <;> rw [h1] at h
      · exact Option.noConfusion h
      · obtain ⟨a1, a2, a3, a4, a5, a6⟩ := applyOperation_spec h1
        obtain ⟨b1, b2, b3, b4, b5, b6⟩ := ih h
        refine ⟨b1.trans a1, b2.trans a2, ?_, ?_, ?_, ?_⟩
        · exact fun s hs => a3 s (b3 s hs)
        · exact fun s hs => a4 s (b4 s hs)
        · exact fun s hs => b5 s (a5 s hs)
        · intro s hs
          rcases b6 s hs with hs' | hs' | hs'
          · rcases a6 s hs' with h' | h' | h'
            · exact Or.inl h'
            · exact Or.inr (Or.inl h')
            · exact Or.inr (Or.inr h')
          · exact Or.inr (Or.inl (a3 s hs'))
          · exact Or.inr (Or.inr (a4 s hs'))

theorem visitFunctionCall_spec {env : Env} {c : FunctionCall}
    {st st2 : PassState}
    (h : visitFunctionCall env c st = some st2) :
    st2.allStores = st.allStores ∧
    st2.storeOperations = st.storeOperations ∧
    (∀ s, s ∈ st2.activeMemory → s ∈ st.activeMemory) ∧
    (∀ s, s ∈ st2.activeStorage → s ∈ st.activeStorage) ∧
    (∀ s, s ∈ st.usedStores → s ∈ st2.usedStores) ∧
    (∀ s, s ∈ st2.usedStores →
      s ∈ st.usedStores ∨ s ∈ st.activeMemory ∨ s ∈ st.activeStorage) := by
  unfold visitFunctionCall at h
  rcases h1 : applyOperationList env (operationsFromFunctionCall env c) st
      with _ | st1 <;> rw [h1] at h
  · exact Option.noConfusion h
  · cases Option.some.inj h
    obtain ⟨a1, a2, a3, a4, a5, a6⟩ := applyOperationList_spec h1
    rcases hcf : controlFlowOf env c.functionName with ⟨cc, ct⟩
    rw [applyControlFlow_eq]
    refine ⟨a1, a2, ?_, ?_, ?_, ?_⟩ <;> intro s hs
    · rcases hcc : !cc with _ | _ <;> rw [hcc] at hs
      · exact a3 s hs
      · exact absurd hs (List.not_mem_nil s)
    · rcases hor : (ct || !cc) with _ | _ <;> rw [hor] at hs
      · exact a4 s hs
      · exact absurd hs (List.not_mem_nil s)
    · cases ct with
      | false => exact a5 s hs
      | true => exact mem_insertAll.mpr (Or.inr (a5 s hs))
    · cases ct with
      | false =>
          rcases a6 s hs with h' | h' | h'
          · exact Or.inl h'
          · exact Or.inr (Or.inl h')
          · exact Or.inr (Or.inr h')
      | true =>
          rcases mem_insertAll.mp hs with hs' | hs'
          · exact Or.inr (Or.inr (a4 s hs'))
          · rcases a6 s hs' with h' | h' | h'
            · exact Or.inl h'
            · exact Or.inr (Or.inl h')
            · exact Or.inr (Or.inr h')

theorem recordStore_memory {idx : Nat} {op : Operation} {st : PassState}
    (hl : op.location = .Memory) :
    recordStore idx op st =
      { st with
        allStores := setInsert idx st.allStores,
        activeMemory := setInsert idx st.activeMemory,
        storeOperations := (idx, op) :: st.storeOperations } := by
  unfold recordStore
  rw [hl]
  rfl

theorem recordStore_storage {idx : Nat} {op : Operation} {st : PassState}
    (hl : op.location = .Storage) :
    recordStore idx op st =
      { st with
        allStores := setInsert idx st.allStores,
        activeStorage := setInsert idx st.activeStorage,
        storeOperations := (idx, op) :: st.storeOperations } := by
  unfold recordStore
  rw [hl]
  rfl

theorem visitCandidate_cases {env : Env} {idx : Nat} {c : FunctionCall}
    {st st2 : PassState}
    (h : visitCandidate env idx c st = some st2) :
    st2 = st ∨ ∃ op, operationsFromFunctionCall env c = [op] ∧
      st2 = recordStore idx op st := by
  unfold visitCandidate at h
  split at h
  · exact Or.inl (Option.some.inj h).symm
  · simp only [] at h
    split at h <;>
      first
        | exact Option.noConfusion h
        | exact Or.inl (Option.some.inj h).symm
        | (split at h <;>
            first
              | exact Option.noConfusion h
              | exact Or.inl (Option.some.inj h).symm
              | (split at h <;>
                  first
                    | exact Option.noConfusion h
                    | exact Or.inl (Option.some.inj h).symm
                    | (split at h <;>
                        first
                          | exact Option.noConfusion h
                          | exact Or.inl (Option.some.inj h).symm
                          | (rename_i op heq
                             exact Or.inr ⟨op, heq, (Option.some.inj h).symm⟩))))

theorem visitStmt_spec {env : Env} {st st2 : PassState} {idx : Nat}
    {stmt : Stmt}
    (h : visitStmt env st (idx, stmt) = some st2) :
    (∀ s, s ∈ st2.allStores → s = idx ∨ s ∈ st.allStores) ∧
    (∀ s, s ∈ st.allStores → s ∈ st2.allStores) ∧
    (∀ s, s ∈ st.usedStores → s ∈ st2.usedStores) ∧
    (∀ s, s ∈ st2.usedStores →
      s ∈ st.usedStores ∨ s ∈ st.activeMemory ∨ s ∈ st.activeStorage) ∧
    (∀ s, s ∈ st2.activeMemory → s = idx ∨ s ∈ st.activeMemory) ∧
    (∀ s, s ∈ st2.activeStorage → s = idx ∨ s ∈ st.activeStorage) := by
  unfold visitStmt at h
  rcases stmt with c | ⟨n, rhs⟩
  · simp only [] at h
    rcases h1 : visitFunctionCall env c st with _ | st1 <;> rw [h1] at h
    · exact Option.noConfusion h
    · obtain ⟨a1, a2, a3, a4, a5, a6⟩ := visitFunctionCall_spec h1
      rcases visitCandidate_cases h with rfl | ⟨op, hops, rfl⟩
      · refine ⟨?_, ?_, ?_, ?_, ?_, ?_⟩ <;> intro s hs
        · exact Or.inr (a1 ▸ hs)
        · exact a1 ▸ hs
        · exact a5 s hs
        · exact a6 s hs
        · exact Or.inr (a3 s hs)
        · exact Or.inr (a4 s hs)
      · rcases hl : op.location with _ | _
        · rw [recordStore_memory hl]
          refine ⟨?_, ?_, ?_, ?_, ?_, ?_⟩ <;> intro s hs <;>
            simp only [] at hs ⊢
          · rcases mem_setInsert.mp (a1 ▸ hs) with rfl | hs'
            · exact Or.inl rfl
            · exact Or.inr (a1 ▸ hs')
          · exact mem_setInsert.mpr (Or.inr (a1 ▸ hs))
          · exact a5 s hs
          · exact a6 s hs
          · rcases mem_setInsert.mp hs with rfl | hs'
            · exact Or.inl rfl
            · exact Or.inr (a3 s hs')
          · exact Or.inr (a4 s hs)
        · rw [recordStore_storage hl]
          refine ⟨?_, ?_, ?_, ?_, ?_, ?_⟩ <;> intro s hs <;>
            simp only [] at hs ⊢
          · rcases mem_setInsert.mp (a1 ▸ hs) with rfl | hs'
            · exact Or.inl rfl
            · exact Or.inr (a1 ▸ hs')
          · exact mem_setInsert.mpr (Or.inr (a1 ▸ hs))
          · exact a5 s hs
          · exact a6 s hs
          · exact Or.inr (a3 s hs)
          · rcases mem_setInsert.mp hs with rfl | hs'
            · exact Or.inl rfl
            · exact Or.inr (a4 s hs')
  · rcases rhs with a | c
    · cases Option.some.inj h
      exact ⟨fun s hs => Or.inr hs, fun s hs => hs, fun s hs => hs,
        fun s hs => Or.inl hs, fun s hs => Or.inr hs, fun s hs => Or.inr hs⟩
    · obtain ⟨a1, a2, a3, a4, a5, a6⟩ := visitFunctionCall_spec h
      exact ⟨fun s hs => Or.inr (a1 ▸ hs), fun s hs => a1 ▸ hs, a5, a6,
        fun s hs => Or.inr (a3 s hs), fun s hs => Or.inr (a4 s hs)⟩

theorem visitCandidate_returndatacopy_bad {env : Env} {idx : Nat}
    {c : FunctionCall} {st : PassState}
    (hname : c.functionName = "returndatacopy")
    (hshape : returndatacopyRemovable env c = false) :
    visitCandidate env idx c st = some st := by
  unfold visitCandidate
  rw [hname,
    show toEVMInstruction "returndatacopy" = some Instr.RETURNDATACOPY from rfl]
  cases hig : env.ignoreMemory <;>
    simp [isCandidateForRemoval, isMemoryWriteInstr,
      SemanticInformation.otherState, SemanticInformation.storage,
      SemanticInformation.memory, hig, hshape] <;>
    decide

theorem visitCandidate_returndatacopy_good {env : Env} {idx : Nat}
    {c : FunctionCall} {st : PassState}
    (hname : c.functionName = "returndatacopy")
    (hig : env.ignoreMemory = false)
    (hshape : returndatacopyRemovable env c = true) :
    visitCandidate env idx c st = some (recordStore idx
      (resolveOpDescr env c.arguments ⟨.Memory, .Write, some 0, some 2, none⟩)
      st) := by
  have hops : operationsFromFunctionCall env c =
      [resolveOpDescr env c.arguments ⟨.Memory, .Write, some 0, some 2, none⟩] := by
    unfold operationsFromFunctionCall
    rw [hname,
      show toEVMInstruction "returndatacopy" = some Instr.RETURNDATACOPY from rfl]
    rfl
  unfold visitCandidate
  rw [hname,
    show toEVMInstruction "returndatacopy" = some Instr.RETURNDATACOPY from rfl]
  simp [isCandidateForRemoval, isMemoryWriteInstr,
    SemanticInformation.otherState, SemanticInformation.storage,
    SemanticInformation.memory, hig, hshape, hops]

theorem visitStmt_returndatacopy_bad_allStores {env : Env}
    {st st2 : PassState} {idx : Nat} {c : FunctionCall}
    (h : visitStmt env st (idx, .exprStmt c) = some st2)
    (hname : c.functionName = "returndatacopy")
    (hshape : returndatacopyRemovable env c = false) :
    st2.allStores = st.allStores := by
  unfold visitStmt at h
  simp only [] at h
  rcases h1 : visitFunctionCall env c st with _ | st1 <;> rw [h1] at h
  · exact Option.noConfusion h
  · simp only [] at h
    rw [visitCandidate_returndatacopy_bad hname hshape] at h
    cases Option.some.inj h
    exact (visitFunctionCall_spec h1).1

theorem interpret_rdc_not_added {env : Env} {l : List (Nat × Stmt)}
    {st stF : PassState} {idx : Nat}
    (h : interpretStmts env l st = some stF)
    (hnot : idx ∉ st.allStores)
    (hstmts : ∀ stmt, (idx, stmt) ∈ l → ∃ c, stmt = .exprStmt c ∧
      c.functionName = "returndatacopy" ∧
      returndatacopyRemovable env c = false) :
    idx ∉ stF.allStores := by
  induction l generalizing st with
  | nil =>
      cases Option.some.inj h
      exact hnot
  | cons p rest ih =>
      unfold interpretStmts at h
      rcases h1 : visitStmt env st p with _ | st1 <;> rw [h1] at h
      · exact Option.noConfusion h
      · obtain ⟨j, stmt⟩ := p
        by_cases hj : j = idx
        · subst hj
          obtain ⟨c, rfl, hname, hshape⟩ :=
            hstmts stmt (List.mem_cons_self _ _)
          have heq := visitStmt_returndatacopy_bad_allStores h1 hname hshape
          exact ih h (heq ▸ hnot)
            (fun stmt2 hm => hstmts stmt2 (List.mem_cons_of_mem _ hm))
        · have hspec := visitStmt_spec h1
          have hnot1 : idx ∉ st1.allStores := by
            intro hmem
            rcases hspec.1 idx hmem with heq | hmem'
            · exact hj heq.symm
            · exact hnot hmem'
          exact ih h hnot1
            (fun stmt2 hm => hstmts stmt2 (List.mem_cons_of_mem _ hm))

theorem enumerate_mem {prog : List Stmt} {k j : Nat} {stmt : Stmt}
    (h : (j, stmt) ∈ enumerate k prog) :
    k ≤ j ∧ prog.get? (j - k) = some stmt := by
  induction prog generalizing k with
  | nil => cases h
  | cons s rest ih =>
      unfold enumerate at h
      rcases List.mem_cons.mp h with heq | hmem
      · cases heq
        exact ⟨Nat.le_refl _, by simp⟩
      · obtain ⟨hle, hget⟩ := ih hmem
        refine ⟨Nat.le_of_succ_le hle, ?_⟩
        have : j - k = (j - (k + 1)) + 1 := by omega
        rw [this]
        simpa using hget

/-- C4: a `returndatacopy` statement becomes a removal candidate only in
the shape where the start offset is an SSA symbol known to be zero and
the length is an SSA variable defined by a `returndatasize` call: a
`returndatacopy` of any other shape leaves the interpreter state
untouched by classification (first conjunct), the accepted shape is
recorded in `allStores` and active memory (second conjunct), and a
`returndatacopy` statement of any other shape is never in the removal
set of a run (third conjunct). -/
theorem c4_returndatacopy_only_exact_shape :
    (∀ (env : Env) (idx : Nat) (c : FunctionCall) (st : PassState),
      c.functionName = "returndatacopy" →
      returndatacopyRemovable env c = false →
      visitCandidate env idx c st = some st) ∧
    (∀ (env : Env) (idx : Nat) (c : FunctionCall) (st st2 : PassState),
      c.functionName = "returndatacopy" → env.ignoreMemory = false →
      returndatacopyRemovable env c = true →
      visitCandidate env idx c st = some st2 →
      idx ∈ st2.allStores ∧ idx ∈ st2.activeMemory) ∧
    (∀ (flag : Bool) (funSE : String → SideEffects)
      (funCF : String → ControlFlowSideEffects) (prog : List Stmt)
      (idx : Nat) (c : FunctionCall) (r : List Nat),
      prog.get? idx = some (.exprStmt c) →
      c.functionName = "returndatacopy" →
      returndatacopyRemovable (envOf funSE funCF prog) c = false →
      removedStatements flag funSE funCF prog = some r →
      idx ∉ r) := by
  refine ⟨?_, ?_, ?_⟩
  · intro env idx c st hname hshape
    exact visitCandidate_returndatacopy_bad hname hshape
  · intro env idx c st st2 hname hig hshape h
    rw [visitCandidate_returndatacopy_good hname hig hshape] at h
    cases Option.some.inj h
    rw [recordStore_memory rfl]
    exact ⟨mem_setInsert.mpr (Or.inl rfl), mem_setInsert.mpr (Or.inl rfl)⟩
  · intro flag funSE funCF prog idx c r hget hname hshape hrem hmem
    unfold removedStatements at hrem
    rcases hrun : runPass flag funSE funCF prog with _ | stF <;>
      rw [hrun] at hrem
    · exact Option.noConfusion hrem
    · cases Option.some.inj hrem
      have hin := mem_setMinus.mp hmem
      simp only [runPass] at hrun
      rcases hw : interpretStmts (envOf funSE funCF prog) (enumerate 0 prog)
          initialState with _ | stW <;> rw [hw] at hrun
      · exact Option.noConfusion hrun
      · have hnotW : idx ∉ stW.allStores := by
          refine interpret_rdc_not_added hw (by simp [initialState]) ?_
          intro stmt hm
          obtain ⟨-, hget2⟩ := enumerate_mem hm
          rw [Nat.sub_zero] at hget2
          rw [hget] at hget2
          exact ⟨c, (Option.some.inj hget2).symm, hname, hshape⟩
        have hF : stF.allStores = stW.allStores := by
          cases Option.some.inj hrun
          cases flag <;>
            simp [markActiveAsUsed, clearActive]
        exact hnotW (hF ▸ hin.1)

/-- C4 witness: the concrete program `let z := 0
returndatacopy(z, z, 32) stop()` — the length is a literal, not
`returndatasize()`, so statement 1 is not removed (nothing is). -/
theorem c4_returndatacopy_witness :
    (progBadReturndatacopy.get? 1 =
      some (.exprStmt ⟨"returndatacopy", [.ident "z", .ident "z", .lit 32]⟩)) ∧
    removedStatements true noFunSE noFunCF progBadReturndatacopy = some [] ∧
    (1 : Nat) ∉ ([] : List Nat) := by
  refine ⟨rfl, rfl, ?_⟩
  exact c4_returndatacopy_only_exact_shape.2.2 true noFunSE noFunCF
    progBadReturndatacopy 1 ⟨"returndatacopy", [.ident "z", .ident "z", .lit 32]⟩
    [] rfl rfl rfl rfl

theorem candidate_consistency (env : Env) (i : Instr) :
    isCandidateForRemoval env i =
      ((i == Instr.SSTORE) || (!env.ignoreMemory && isMemoryWriteInstr i)) := by
  unfold isCandidateForRemoval isMemoryWriteInstr
  cases hig : env.ignoreMemory <;> cases i <;> decide

theorem visitCandidate_none {env : Env} {idx : Nat} {c : FunctionCall}
    {st : PassState} (hi : toEVMInstruction c.functionName = none) :
    visitCandidate env idx c st = some st := by
  unfold visitCandidate
  rw [hi]

theorem visitCandidate_assert_ok {env : Env} {idx : Nat} {c : FunctionCall}
    {st : PassState} {i : Instr}
    (hi : toEVMInstruction c.functionName = some i) :
    visitCandidate env idx c st =
      (if isCandidateForRemoval env i then
        (if i = Instr.RETURNDATACOPY ∧ ¬returndatacopyRemovable env c then
          some st
         else
           match operationsFromFunctionCall env c with
           | [op] => some (recordStore idx op st)
           | _ => none)
       else some st) := by
  unfold visitCandidate
  rw [hi]
  simp only [candidate_consistency env i, bne_self_eq_false]
  rfl

theorem visitStmt_msize_allStores {env : Env} {st st2 : PassState}
    {idx j : Nat} {stmt : Stmt}
    (hig : env.ignoreMemory = true)
    (h : visitStmt env st (j, stmt) = some st2)
    (hmem : idx ∈ st2.allStores) :
    idx ∈ st.allStores ∨ (idx = j ∧ ∃ c, stmt = .exprStmt c ∧
      toEVMInstruction c.functionName = some Instr.SSTORE) := by
  rcases stmt with c | ⟨n, rhs⟩
  · unfold visitStmt at h
    simp only [] at h
    rcases h1 : visitFunctionCall env c st with _ | st1 <;> rw [h1] at h
    · exact Option.noConfusion h
    · simp only [] at h
      have ha1 := (visitFunctionCall_spec h1).1
      rcases hi : toEVMInstruction c.functionName with _ | i
      · rw [visitCandidate_none hi] at h
        cases Option.some.inj h
        exact Or.inl (ha1 ▸ hmem)
      · rw [visitCandidate_assert_ok hi] at h
        rcases hc : isCandidateForRemoval env i with _ | _ <;> rw [hc] at h
        · rw [if_neg (by simp)] at h
          cases Option.some.inj h
          exact Or.inl (ha1 ▸ hmem)
        · have hsstore : i = Instr.SSTORE := by
            have := (candidate_consistency env i) ▸ hc
            rw [hig] at this
            simpa using this
          subst hsstore
          rw [if_pos rfl, if_neg (by simp)] at h
          have hops : operationsFromFunctionCall env c =
              [resolveOpDescr env c.arguments
                ⟨.Storage, .Write, some 0, none, some 1⟩] := by
            unfold operationsFromFunctionCall
            rw [hi]
            rfl
          rw [hops] at h
          cases Option.some.inj h
          rw [recordStore_storage rfl] at hmem
          rcases mem_setInsert.mp hmem with rfl | hmem'
          · exact Or.inr ⟨rfl, c, rfl, hi⟩
          · exact Or.inl (ha1 ▸ hmem')
  · unfold visitStmt at h
    simp only [] at h
    rcases rhs with a | c
    · cases Option.some.inj h
      exact Or.inl hmem
    · exact Or.inl ((visitFunctionCall_spec h).1 ▸ hmem)

theorem interpret_msize_allStores {env : Env} {l : List (Nat × Stmt)}
    {st stF : PassState} {idx : Nat}
    (hig : env.ignoreMemory = true)
    (h : interpretStmts env l st = some stF)
    (hmem : idx ∈ stF.allStores) :
    idx ∈ st.allStores ∨ ∃ c, (idx, Stmt.exprStmt c) ∈ l ∧
      toEVMInstruction c.functionName = some Instr.SSTORE := by
  induction l generalizing st with
  | nil =>
      cases Option.some.inj h
      exact Or.inl hmem
  | cons p rest ih =>
      unfold interpretStmts at h
      rcases h1 : visitStmt env st p with _ | st1 <;> rw [h1] at h
      · exact Option.noConfusion h
      · obtain ⟨j, stmt⟩ := p
        rcases ih h with hin | ⟨c, hm, hss⟩
        · rcases visitStmt_msize_allStores hig h1 hin with hin' | ⟨rfl, c, rfl, hss⟩
          · exact Or.inl hin'
          · exact Or.inr ⟨c, List.mem_cons_self _ _, hss⟩
        · exact Or.inr ⟨c, List.mem_cons_of_mem _ hm, hss⟩

/-- C7: when the program contains `msize`, only `sstore` statements are
ever classified as candidate stores (first conjunct: a candidate
instruction under `ignoreMemory` must be `sstore`), and consequently
every statement a run removes is an `sstore` — an instruction with no
memory write — so no memory store is removed (second conjunct). -/
theorem c7_msize_inhibits_memory_removal :
    (∀ (env : Env) (i : Instr), env.ignoreMemory = true →
      isCandidateForRemoval env i = true → i = Instr.SSTORE) ∧
    (∀ (flag : Bool) (funSE : String → SideEffects)
      (funCF : String → ControlFlowSideEffects) (prog : List Stmt)
      (r : List Nat) (idx : Nat),
      containsMSize prog = true →
      removedStatements flag funSE funCF prog = some r → idx ∈ r →
      ∃ c, prog.get? idx = some (.exprStmt c) ∧
        toEVMInstruction c.functionName = some Instr.SSTORE ∧
        SemanticInformation.memory Instr.SSTORE = Effect.None) := by
  have part1 : ∀ (env : Env) (i : Instr), env.ignoreMemory = true →
      isCandidateForRemoval env i = true → i = Instr.SSTORE := by
    intro env i hig hc
    have := (candidate_consistency env i) ▸ hc
    rw [hig] at this
    cases i <;> simp_all
  refine ⟨part1, ?_⟩
  intro flag funSE funCF prog r idx hms hrem hmem
  unfold removedStatements at hrem
  rcases hrun : runPass flag funSE funCF prog with _ | stF <;>
    rw [hrun] at hrem
  · exact Option.noConfusion hrem
  · cases Option.some.inj hrem
    have hin := (mem_setMinus.mp hmem).1
    simp only [runPass] at hrun
    rcases hw : interpretStmts (envOf funSE funCF prog) (enumerate 0 prog)
        initialState with _ | stW <;> rw [hw] at hrun
    · exact Option.noConfusion hrun
    · have hF : stF.allStores = stW.allStores := by
        cases Option.some.inj hrun
        cases flag <;> simp [markActiveAsUsed, clearActive]
      have hig : (envOf funSE funCF prog).ignoreMemory = true := hms
      rcases interpret_msize_allStores hig hw (hF ▸ hin) with hin0 | ⟨c, hm, hss⟩
      · exact absurd hin0 (by simp [initialState])
      · obtain ⟨-, hget⟩ := enumerate_mem hm
        rw [Nat.sub_zero] at hget
        exact ⟨c, hget, hss, rfl⟩

/-- C7 witness: `let m := msize()  let k := 5  sstore(k, 1) sstore(k, 2)
stop()` — statement 2 (the first `sstore`) is removed, and the theorem
identifies it as an `sstore`. -/
theorem c7_msize_witness :
    containsMSize progMsizeStorage = true ∧
    removedStatements true noFunSE noFunCF progMsizeStorage = some [2] ∧
    (2 : Nat) ∈ ([2] : List Nat) ∧
    ∃ c, progMsizeStorage.get? 2 = some (.exprStmt c) ∧
      toEVMInstruction c.functionName = some Instr.SSTORE ∧
      SemanticInformation.memory Instr.SSTORE = Effect.None := by
  refine ⟨rfl, rfl, by decide, ?_⟩
  exact c7_msize_inhibits_memory_removal.2 true noFunSE noFunCF
    progMsizeStorage [2] 2 rfl rfl (by decide)

theorem visitFunctionCall_invariants {env : Env} {c : FunctionCall}
    {st st2 : PassState} (h : visitFunctionCall env c st = some st2)
    (hinv : stateInvariants st) :
    stateInvariants st2 ∧ st2.allStores = st.allStores := by
  obtain ⟨a1, a2, a3, a4, a5, a6⟩ := visitFunctionCall_spec h
  obtain ⟨i1, i2, i3, i4⟩ := hinv
  refine ⟨⟨?_, ?_, ?_, ?_⟩, a1⟩
  · intro s hs
    exact a1 ▸ i1 (a3 s hs)
  · intro s hs
    exact a1 ▸ i2 (a4 s hs)
  · intro s hs hs'
    exact i3 s (a3 s hs) (a4 s hs')
  · intro s hs
    rcases a6 s hs with h' | h' | h'
    · exact a1 ▸ i4 h'
    · exact a1 ▸ i1 h'
    · exact a1 ▸ i2 h'

theorem visitStmt_invariants {env : Env} {st st2 : PassState} {k : Nat}
    {stmt : Stmt}
    (h : visitStmt env st (k, stmt) = some st2)
    (hinv : stateInvariants st) (hb : ∀ s ∈ st.allStores, s < k) :
    stateInvariants st2 ∧ (∀ s ∈ st2.allStores, s < k + 1) := by
  have hbody : ∀ st1 : PassState, stateInvariants st1 →
      st1.allStores = st.allStores → ∀ c : FunctionCall,
      visitCandidate env k c st1 = some st2 →
      stateInvariants st2 ∧ (∀ s ∈ st2.allStores, s < k + 1) := by
    intro st1 hinv1 hall c hc
    obtain ⟨i1, i2, i3, i4⟩ := hinv1
    have hb1 : ∀ s ∈ st1.allStores, s < k := fun s hs => hb s (hall ▸ hs)
    rcases visitCandidate_cases hc with rfl | ⟨op, hops, rfl⟩
    · exact ⟨⟨i1, i2, i3, i4⟩, fun s hs => Nat.lt_succ_of_lt (hb1 s hs)⟩
    · rcases hl : op.location with _ | _
      · rw [recordStore_memory hl]
        refine ⟨⟨?_, ?_, ?_, ?_⟩, ?_⟩
        · intro s hs
          rcases mem_setInsert.mp hs with rfl | hs'
          · exact mem_setInsert.mpr (Or.inl rfl)
          · exact mem_setInsert.mpr (Or.inr (i1 hs'))
        · intro s hs
          exact mem_setInsert.mpr (Or.inr (i2 hs))
        · intro s hs hs'
          rcases mem_setInsert.mp hs with rfl | hs2
          · exact Nat.lt_irrefl s (hb1 s (i2 hs'))
          · exact i3 s hs2 hs'
        · intro s hs
          exact mem_setInsert.mpr (Or.inr (i4 hs))
        · intro s hs
          rcases mem_setInsert.mp hs with rfl | hs'
          · exact Nat.lt_succ_self s
          · exact Nat.lt_succ_of_lt (hb1 s hs')
      · rw [recordStore_storage hl]
        refine ⟨⟨?_, ?_, ?_, ?_⟩, ?_⟩
        · intro s hs
          exact mem_setInsert.mpr (Or.inr (i1 hs))
        · intro s hs
          rcases mem_setInsert.mp hs with rfl | hs'
          · exact mem_setInsert.mpr (Or.inl rfl)
          · exact mem_setInsert.mpr (Or.inr (i2 hs'))
        · intro s hs hs'
          rcases mem_setInsert.mp hs' with heq | hs2
          · exact Nat.lt_irrefl s (heq ▸ hb1 s (i1 hs))
          · exact i3 s hs hs2
        · intro s hs
          exact mem_setInsert.mpr (Or.inr (i4 hs))
        · intro s hs
          rcases mem_setInsert.mp hs with rfl | hs'
          · exact Nat.lt_succ_self s
          · exact Nat.lt_succ_of_lt (hb1 s hs')
  rcases stmt with c | ⟨n, rhs⟩
  · unfold visitStmt at h
    simp only [] at h
    rcases h1 : visitFunctionCall env c st with _ | st1 <;> rw [h1] at h
    · exact Option.noConfusion h
    · simp only [] at h
      obtain ⟨hinv1, hall⟩ := visitFunctionCall_invariants h1 hinv
      exact hbody st1 hinv1 hall c h
  · unfold visitStmt at h
    simp only [] at h
    rcases rhs with a | c
    · cases Option.some.inj h
      exact ⟨hinv, fun s hs => Nat.lt_succ_of_lt (hb s hs)⟩
    · obtain ⟨hinv1, hall⟩ := visitFunctionCall_invariants h hinv
      exact ⟨hinv1, fun s hs => Nat.lt_succ_of_lt (hb s (hall ▸ hs))⟩

theorem interpret_enumerate_invariants {env : Env} {prog : List Stmt}
    {k : Nat} {st stF : PassState}
    (h : interpretStmts env (enumerate k prog) st = some stF)
    (hinv : stateInvariants st) (hb : ∀ s ∈ st.allStores, s < k) :
    stateInvariants stF ∧ (∀ s ∈ stF.allStores, s < k + prog.length) := by
  induction prog generalizing k st with
  | nil =>
      cases Option.some.inj h
      exact ⟨hinv, fun s hs => Nat.lt_of_lt_of_le (hb s hs) (Nat.le_add_right _ _)⟩
  | cons stmt rest ih =>
      unfold enumerate interpretStmts at h
      rcases h1 : visitStmt env st (k, stmt) with _ | st1 <;> rw [h1] at h
      · exact Option.noConfusion h
      · obtain ⟨hinv1, hb1⟩ := visitStmt_invariants h1 hinv hb
        obtain ⟨hinvF, hbF⟩ := ih h hinv1 hb1
        exact ⟨hinvF, fun s hs => by have := hbF s hs; simp; omega⟩

theorem interpret_mono {env : Env} {l : List (Nat × Stmt)}
    {st stF : PassState}
    (h : interpretStmts env l st = some stF) :
    (∀ s, s ∈ st.allStores → s ∈ stF.allStores) ∧
    (∀ s, s ∈ st.usedStores → s ∈ stF.usedStores) := by
  induction l generalizing st with
  | nil =>
      cases Option.some.inj h
      exact ⟨fun s hs => hs, fun s hs => hs⟩
  | cons p rest ih =>
      unfold interpretStmts at h
      rcases h1 : visitStmt env st p with _ | st1 <;> rw [h1] at h
      · exact Option.noConfusion h
      · obtain ⟨j, stmt⟩ := p
        obtain ⟨-, a2, a3, -, -, -⟩ := visitStmt_spec h1
        obtain ⟨b1, b2⟩ := ih h
        exact ⟨fun s hs => b1 s (a2 s hs), fun s hs => b2 s (a3 s hs)⟩

theorem interpretStmts_append (env : Env) (l1 l2 : List (Nat × Stmt))
    (st : PassState) :
    interpretStmts env (l1 ++ l2) st =
      (interpretStmts env l1 st).bind fun st1 => interpretStmts env l2 st1 := by
  induction l1 generalizing st with
  | nil => rfl
  | cons p rest ih =>
      have hL : interpretStmts env ((p :: rest) ++ l2) st =
          (match visitStmt env st p with
           | none => none
           | some st1 => interpretStmts env (rest ++ l2) st1) := rfl
      have hR : interpretStmts env (p :: rest) st =
          (match visitStmt env st p with
           | none => none
           | some st1 => interpretStmts env rest st1) := rfl
      rw [hL, hR]
      rcases h1 : visitStmt env st p with _ | st1 <;> simp only []
      · rfl
      · exact ih st1

theorem enumerate_take (prog : List Stmt) (k n : Nat) :
    (enumerate k prog).take n = enumerate k (prog.take n) := by
  induction prog generalizing k n with
  | nil => simp [enumerate]
  | cons s rest ih =>
      cases n with
      | zero => simp [enumerate]
      | succ n =>
          simp only [enumerate, List.take_succ_cons]
          rw [ih]

/-- C8: at every program point of a run (after any number `n` of visited
statements) the data-model invariants hold — active sets are subsets of
`allStores`, the two active sets are disjoint, and `usedStores ⊆
allStores` — and across the run `allStores` and `usedStores` only ever
gain members. -/
theorem c8_invariants_and_monotone_sets (funSE : String → SideEffects)
    (funCF : String → ControlFlowSideEffects) (prog : List Stmt)
    (n m : Nat) (stN stM : PassState) (hnm : n ≤ m)
    (hn : stateAfter funSE funCF prog n = some stN)
    (hm : stateAfter funSE funCF prog m = some stM) :
    stateInvariants stN ∧
    (∀ s, s ∈ stN.allStores → s ∈ stM.allStores) ∧
    (∀ s, s ∈ stN.usedStores → s ∈ stM.usedStores) := by
  unfold stateAfter at hn hm
  have hn2 := hn
  rw [enumerate_take] at hn2
  have hinvN := interpret_enumerate_invariants hn2
    ⟨by simp [initialState], by simp [initialState],
      by simp [initialState], by simp [initialState]⟩
    (by simp [initialState])
  have hsplit : (enumerate 0 prog).take m =
      (enumerate 0 prog).take n ++ ((enumerate 0 prog).drop n).take (m - n) := by
    rw [← List.take_add]
    congr 1
    omega
  rw [hsplit, interpretStmts_append, hn] at hm
  simp only [Option.some_bind] at hm
  obtain ⟨m1, m2⟩ := interpret_mono hm
  exact ⟨hinvN.1, m1, m2⟩

/-- C8 witness: the invariants and monotone growth between program points
2 and 4 of the SSA store program. -/
theorem c8_invariants_witness :
    (2 : Nat) ≤ 4 ∧
    stateAfter noFunSE noFunCF progSSAStores 2 = some
      ⟨[1], [], [1], [],
        [(1, ⟨.Memory, .Write, some "z", some pseudoThirtyTwo⟩)]⟩ ∧
    stateAfter noFunSE noFunCF progSSAStores 4 = some
      ⟨[], [], [2, 1], [2],
        [(2, ⟨.Memory, .Write, some "z", some pseudoThirtyTwo⟩),
         (1, ⟨.Memory, .Write, some "z", some pseudoThirtyTwo⟩)]⟩ ∧
    (stateInvariants
      ⟨[1], [], [1], [],
        [(1, ⟨.Memory, .Write, some "z", some pseudoThirtyTwo⟩)]⟩ ∧
     (∀ s, s ∈ (PassState.mk [1] [] [1] []
        [(1, ⟨.Memory, .Write, some "z", some pseudoThirtyTwo⟩)]).allStores →
        s ∈ (PassState.mk [] [] [2, 1] [2]
          [(2, ⟨.Memory, .Write, some "z", some pseudoThirtyTwo⟩),
           (1, ⟨.Memory, .Write, some "z", some pseudoThirtyTwo⟩)]).allStores) ∧
     (∀ s, s ∈ (PassState.mk [1] [] [1] []
        [(1, ⟨.Memory, .Write, some "z", some pseudoThirtyTwo⟩)]).usedStores →
        s ∈ (PassState.mk [] [] [2, 1] [2]
          [(2, ⟨.Memory, .Write, some "z", some pseudoThirtyTwo⟩),
           (1, ⟨.Memory, .Write, some "z", some pseudoThirtyTwo⟩)]).usedStores)) := by
  refine ⟨by decide, by rfl, by rfl, ?_⟩
  exact c8_invariants_and_monotone_sets noFunSE noFunCF progSSAStores 2 4
    _ _ (by decide) (by rfl) (by rfl)

theorem lookup_cons_ne {s k : Nat} {op : Operation}
    {ops : List (Nat × Operation)} (h : s ≠ k) :
    List.lookup s ((k, op) :: ops) = List.lookup s ops := by
  have hstep : List.lookup s ((k, op) :: ops) =
      match s == k with
      | true => some op
      | false => List.lookup s ops := rfl
  rw [hstep, show (s == k) = false from beq_eq_false_iff_ne.mpr h]

theorem lookup_cons_self {k : Nat} {op : Operation}
    {ops : List (Nat × Operation)} :
    List.lookup k ((k, op) :: ops) = some op := by
  simp [List.lookup]

theorem knownUnrelated_isSome {env : Env} {op1 op2 : Operation}
    (henv : KnowledgeBase.valueIfKnownConstant env pseudoOne = some 1)
    (hl1 : op1.location = Location.Storage → op1.length = some pseudoOne)
    (hl2 : op2.location = Location.Storage →
      op2.start = none ∨ op2.length = some pseudoOne) :
    ∃ b, knownUnrelated env op1 op2 = some b := by
  unfold knownUnrelated
  rcases h1 : op1.location with _ | _ <;> rcases h2 : op2.location with _ | _
  · rw [if_neg (by simp [h1, h2]), if_neg (by simp [h1])]
    split
    · exact ⟨true, rfl⟩
    · exact ⟨_, rfl⟩
  · exact ⟨true, if_pos (by simp [h1, h2])⟩
  · exact ⟨true, if_pos (by simp [h1, h2])⟩
  · rw [if_neg (by simp [h1, h2]), if_pos rfl]
    rcases hs1 : op1.start with _ | s1 <;> rcases hs2 : op2.start with _ | s2
    · exact ⟨false, rfl⟩
    · exact ⟨false, rfl⟩
    · exact ⟨false, rfl⟩
    · have hlen1 := hl1 h1
      have hlen2 : op2.length = some pseudoOne := by
        rcases hl2 h2 with hc | hc
        · rw [hc] at hs2
          exact Option.noConfusion hs2
        · exact hc
      have hone : storageLengthsOne env op1 op2 = true := by
        unfold storageLengthsOne
        rw [hlen1, hlen2]
        show (KnowledgeBase.valueIfKnownConstant env pseudoOne == some 1 &&
          KnowledgeBase.valueIfKnownConstant env pseudoOne == some 1) = true
        rw [henv]
        rfl
      rw [hone]
      exact ⟨_, rfl⟩

theorem applyToStore_isSome {env : Env} {op : Operation}
    {storeOps : List (Nat × Operation)} {s : Nat}
    (henv : KnowledgeBase.valueIfKnownConstant env pseudoOne = some 1)
    (hlook : ∃ o, storeOps.lookup s = some o ∧ o.location = op.location ∧
      (o.location = Location.Storage → o.length = some pseudoOne))
    (hshape : op.location = Location.Storage →
      op.start = none ∨ op.length = some pseudoOne) :
    ∃ res, applyToStore env op storeOps s = some res := by
  obtain ⟨o, ho, holoc, holen⟩ := hlook
  obtain ⟨b, hb⟩ := knownUnrelated_isSome henv holen hshape
  unfold applyToStore
  rw [ho]
  simp only []
  split
  · rw [hb]
    cases b
    · exact ⟨_, rfl⟩
    · exact ⟨_, rfl⟩
  · split
    · exact ⟨_, rfl⟩
    · exact ⟨_, rfl⟩

theorem classifyActive_isSome {env : Env} {op : Operation}
    {storeOps : List (Nat × Operation)} {l : List Nat}
    (h : ∀ s ∈ l, ∃ res, applyToStore env op storeOps s = some res) :
    ∃ ur, classifyActive env op storeOps l = some ur := by
  induction l with
  | nil => exact ⟨([], []), rfl⟩
  | cons a l ih =>
      obtain ⟨⟨use, remove⟩, ha⟩ := h a (List.mem_cons_self a l)
      obtain ⟨⟨us, rs⟩, hc⟩ := ih (fun s hs => h s (List.mem_cons_of_mem _ hs))
      refine ⟨(if use then a :: us else us, if remove then a :: rs else rs), ?_⟩
      unfold classifyActive
      rw [ha, hc]

theorem applyOperation_total {env : Env} {op : Operation} {st : PassState}
    (henv : KnowledgeBase.valueIfKnownConstant env pseudoOne = some 1)
    (hops : opsInvariant st)
    (hshape : op.location = Location.Storage →
      op.start = none ∨ op.length = some pseudoOne) :
    ∃ st2, applyOperation env op st = some st2 ∧ opsInvariant st2 := by
  have htotal : ∀ s ∈ st.active op.location,
      ∃ res, applyToStore env op st.storeOperations s = some res := by
    intro s hs
    rcases hloc : op.location with _ | _
    · rw [hloc] at hs
      obtain ⟨o, ho, holoc⟩ := hops.1 s hs
      refine applyToStore_isSome henv ⟨o, ho, by rw [holoc, hloc], ?_⟩ hshape
      intro hcontra
      rw [holoc] at hcontra
      exact Location.noConfusion hcontra
    · rw [hloc] at hs
      obtain ⟨o, ho, holoc, holen⟩ := hops.2 s hs
      exact applyToStore_isSome henv
        ⟨o, ho, by rw [holoc, hloc], fun _ => holen⟩ hshape
  obtain ⟨⟨u, r⟩, hc⟩ := classifyActive_isSome htotal
  have happ : applyOperation env op st = some
      ((st.setActive op.location
        (setMinus (st.active op.location) r)).setUsed
        (insertAll u st.usedStores)) := by
    simp only [applyOperation, hc]
  refine ⟨_, happ, ?_⟩
  obtain ⟨a1, a2, a3, a4, a5, a6⟩ := applyOperation_spec happ
  constructor
  · intro s hs
    obtain ⟨o, ho, holoc⟩ := hops.1 s (a3 s hs)
    exact ⟨o, by rw [a2]; exact ho, holoc⟩
  · intro s hs
    obtain ⟨o, ho, holoc, holen⟩ := hops.2 s (a4 s hs)
    exact ⟨o, by rw [a2]; exact ho, holoc, holen⟩

theorem operationsFromFunctionCall_shape (env : Env) (c : FunctionCall) :
    ∀ op ∈ operationsFromFunctionCall env c,
      op.location = Location.Storage →
      op.start = none ∨ op.length = some pseudoOne := by
  intro op hop hloc
  unfold operationsFromFunctionCall at hop
  rcases hi : toEVMInstruction c.functionName with _ | i <;> rw [hi] at hop
  · left
    simp only [] at hop
    rcases List.mem_append.mp hop with h | h <;> split at h <;>
      first
        | exact absurd h (List.not_mem_nil op)
        | (simp at h; subst h; rfl)
  · cases i <;>
      simp [SemanticInformation.readWriteOperations, resolveOpDescr] at hop <;>
      subst hop <;>
      first
        | exact Or.inr rfl
        | exact absurd hloc (by simp)

theorem applyOperationList_total {env : Env} {ops : List Operation}
    {st : PassState}
    (henv : KnowledgeBase.valueIfKnownConstant env pseudoOne = some 1)
    (hops : opsInvariant st)
    (hshape : ∀ op ∈ ops, op.location = Location.Storage →
      op.start = none ∨ op.length = some pseudoOne) :
    ∃ st2, applyOperationList env ops st = some st2 ∧ opsInvariant st2 := by
  induction ops generalizing st with
  | nil => exact ⟨st, rfl, hops⟩
  | cons op rest ih =>
      obtain ⟨st1, h1, hops1⟩ := applyOperation_total henv hops
        (hshape op (List.mem_cons_self _ _))
      obtain ⟨st2, h2, hops2⟩ := ih hops1
        (fun o ho => hshape o (List.mem_cons_of_mem _ ho))
      refine ⟨st2, ?_, hops2⟩
      unfold applyOperationList
      rw [h1]
      exact h2

theorem applyControlFlow_opsInvariant (cf : ControlFlowSideEffects)
    {st : PassState} (hops : opsInvariant st) :
    opsInvariant (applyControlFlow cf st) := by
  obtain ⟨cc, ct⟩ := cf
  rw [applyControlFlow_eq]
  constructor
  · intro s hs
    rcases hcc : !cc with _ | _ <;> rw [hcc] at hs
    · exact hops.1 s hs
    · exact absurd hs (List.not_mem_nil s)
  · intro s hs
    rcases hor : (ct || !cc) with _ | _ <;> rw [hor] at hs
    · exact hops.2 s hs
    · exact absurd hs (List.not_mem_nil s)

theorem candidate_ops_singleton {env : Env} {c : FunctionCall} {i : Instr}
    (hi : toEVMInstruction c.functionName = some i)
    (hc : isCandidateForRemoval env i = true) :
    ∃ op, operationsFromFunctionCall env c = [op] ∧
      (op.location = Location.Storage → op.length = some pseudoOne) := by
  have hops : operationsFromFunctionCall env c =
      (SemanticInformation.readWriteOperations i).map
        (resolveOpDescr env c.arguments) := by
    unfold operationsFromFunctionCall
    rw [hi]
  cases i
  case SSTORE =>
    exact ⟨resolveOpDescr env c.arguments ⟨.Storage, .Write, some 0, none, some 1⟩,
      by rw [hops]; rfl, fun _ => rfl⟩
  case MSTORE =>
    exact ⟨resolveOpDescr env c.arguments ⟨.Memory, .Write, some 0, none, some 32⟩,
      by rw [hops]; rfl, fun h => absurd h (by simp [resolveOpDescr])⟩
  case MSTORE8 =>
    exact ⟨resolveOpDescr env c.arguments ⟨.Memory, .Write, some 0, none, some 1⟩,
      by rw [hops]; rfl, fun h => absurd h (by simp [resolveOpDescr])⟩
  case RETURNDATACOPY =>
    exact ⟨resolveOpDescr env c.arguments ⟨.Memory, .Write, some 0, some 2, none⟩,
      by rw [hops]; rfl, fun h => absurd h (by simp [resolveOpDescr])⟩
  case CALLDATACOPY =>
    exact ⟨resolveOpDescr env c.arguments ⟨.Memory, .Write, some 0, some 2, none⟩,
      by rw [hops]; rfl, fun h => absurd h (by simp [resolveOpDescr])⟩
  case CODECOPY =>
    exact ⟨resolveOpDescr env c.arguments ⟨.Memory, .Write, some 0, some 2, none⟩,
      by rw [hops]; rfl, fun h => absurd h (by simp [resolveOpDescr])⟩
  case EXTCODECOPY =>
    exact ⟨resolveOpDescr env c.arguments ⟨.Memory, .Write, some 1, some 3, none⟩,
      by rw [hops]; rfl, fun h => absurd h (by simp [resolveOpDescr])⟩
  all_goals
    exact absurd hc (by unfold isCandidateForRemoval; cases env.ignoreMemory <;> decide)

theorem visitStmt_total {env : Env} {st : PassState} {k : Nat} {stmt : Stmt}
    (henv : KnowledgeBase.valueIfKnownConstant env pseudoOne = some 1)
    (hsi : stateInvariants st)
    (hb : ∀ s ∈ st.allStores, s < k)
    (hbop : ∀ p ∈ st.storeOperations, p.1 < k)
    (hops : opsInvariant st) :
    ∃ st2, visitStmt env st (k, stmt) = some st2 ∧
      (∀ p ∈ st2.storeOperations, p.1 < k + 1) ∧ opsInvariant st2 := by
  have hcall : ∀ c : FunctionCall, ∃ st1,
      visitFunctionCall env c st = some st1 ∧ opsInvariant st1 ∧
      st1.storeOperations = st.storeOperations ∧
      st1.allStores = st.allStores ∧ stateInvariants st1 := by
    intro c
    obtain ⟨stx, hx, hopsx⟩ := applyOperationList_total henv hops
      (operationsFromFunctionCall_shape env c)
    refine ⟨applyControlFlow (controlFlowOf env c.functionName) stx, ?_, ?_, ?_, ?_, ?_⟩
    · unfold visitFunctionCall
      rw [hx]
    · exact applyControlFlow_opsInvariant _ hopsx
    all_goals
      have hv : visitFunctionCall env c st =
          some (applyControlFlow (controlFlowOf env c.functionName) stx) := by
        unfold visitFunctionCall
        rw [hx]
    · exact ((visitFunctionCall_spec hv).2.1)
    · exact ((visitFunctionCall_spec hv).1)
    · exact (visitFunctionCall_invariants hv hsi).1
  rcases stmt with c | ⟨n, rhs⟩
  · obtain ⟨st1, h1, hops1, hso1, hall1, hsi1⟩ := hcall c
    have hstep : ∀ st2, visitCandidate env k c st1 = some st2 →
        visitStmt env st (k, Stmt.exprStmt c) = some st2 := by
      intro st2 h2
      unfold visitStmt
      simp only []
      rw [h1]
      exact h2
    rcases hi : toEVMInstruction c.functionName with _ | i
    · refine ⟨st1, hstep st1 (visitCandidate_none hi), ?_, hops1⟩
      rw [hso1]
      exact fun p hp => Nat.lt_succ_of_lt (hbop p hp)
    · rcases hcand : isCandidateForRemoval env i with _ | _
      · refine ⟨st1, hstep st1 ?_, ?_, hops1⟩
        · rw [visitCandidate_assert_ok hi, hcand, if_neg (by simp)]
        · rw [hso1]
          exact fun p hp => Nat.lt_succ_of_lt (hbop p hp)
      · by_cases hrdc : i = Instr.RETURNDATACOPY ∧
            ¬returndatacopyRemovable env c = true
        · refine ⟨st1, hstep st1 ?_, ?_, hops1⟩
          · rw [visitCandidate_assert_ok hi, hcand, if_pos rfl, if_pos hrdc]
          · rw [hso1]
            exact fun p hp => Nat.lt_succ_of_lt (hbop p hp)
        · obtain ⟨op, hopeq, hoplen⟩ := candidate_ops_singleton hi hcand
          have h2 : visitCandidate env k c st1 = some (recordStore k op st1) := by
            rw [visitCandidate_assert_ok hi, hcand, if_pos rfl, if_neg hrdc,
              hopeq]
          have hb1 : ∀ s ∈ st1.allStores, s < k :=
            fun s hs => hb s (hall1 ▸ hs)
          have hbop1 : ∀ p ∈ st1.storeOperations, p.1 < k :=
            fun p hp => hbop p (hso1 ▸ hp)
          refine ⟨recordStore k op st1, hstep _ h2, ?_, ?_⟩
          · -- store-operation bound after recording
            intro p hp
            rcases hl : op.location with _ | _
            · rw [recordStore_memory hl] at hp
              rcases List.mem_cons.mp hp with rfl | hp'
              · exact Nat.lt_succ_self k
              · exact Nat.lt_succ_of_lt (hbop1 p hp')
            · rw [recordStore_storage hl] at hp
              rcases List.mem_cons.mp hp with rfl | hp'
              · exact Nat.lt_succ_self k
              · exact Nat.lt_succ_of_lt (hbop1 p hp')
          · -- the operation map invariant after recording
            have hopin : op ∈ operationsFromFunctionCall env c := by
              rw [hopeq]
              exact List.mem_cons_self _ _
            rcases hl : op.location with _ | _
            · rw [recordStore_memory hl]
              constructor
              · intro s hs
                rcases mem_setInsert.mp hs with rfl | hs'
                · exact ⟨op, lookup_cons_self, hl⟩
                · obtain ⟨o, ho, holoc⟩ := hops1.1 s hs'
                  have hne : s ≠ k :=
                    fun heq => Nat.lt_irrefl k (heq ▸ hb1 s (hsi1.1 hs'))
                  exact ⟨o, by rw [lookup_cons_ne hne]; exact ho, holoc⟩
              · intro s hs
                obtain ⟨o, ho, holoc, holen⟩ := hops1.2 s hs
                have hne : s ≠ k :=
                  fun heq => Nat.lt_irrefl k (heq ▸ hb1 s (hsi1.2.1 hs))
                exact ⟨o, by rw [lookup_cons_ne hne]; exact ho, holoc, holen⟩
            · rw [recordStore_storage hl]
              constructor
              · intro s hs
                obtain ⟨o, ho, holoc⟩ := hops1.1 s hs
                have hne : s ≠ k :=
                  fun heq => Nat.lt_irrefl k (heq ▸ hb1 s (hsi1.1 hs))
                exact ⟨o, by rw [lookup_cons_ne hne]; exact ho, holoc⟩
              · intro s hs
                rcases mem_setInsert.mp hs with rfl | hs'
                · exact ⟨op, lookup_cons_self, hl, hoplen hl⟩
                · obtain ⟨o, ho, holoc, holen⟩ := hops1.2 s hs'
                  have hne : s ≠ k :=
                    fun heq => Nat.lt_irrefl k (heq ▸ hb1 s (hsi1.2.1 hs'))
                  exact ⟨o, by rw [lookup_cons_ne hne]; exact ho, holoc, holen⟩
  · rcases rhs with a | c
    · refine ⟨st, rfl, fun p hp => Nat.lt_succ_of_lt (hbop p hp), hops⟩
    · obtain ⟨st1, h1, hops1, hso1, hall1, hsi1⟩ := hcall c
      refine ⟨st1, ?_, ?_, hops1⟩
      · unfold visitStmt
        simp only []
        exact h1
      · rw [hso1]
        exact fun p hp => Nat.lt_succ_of_lt (hbop p hp)

theorem interpret_enumerate_total {env : Env} {prog : List Stmt} {k : Nat}
    {st : PassState}
    (henv : KnowledgeBase.valueIfKnownConstant env pseudoOne = some 1)
    (hsi : stateInvariants st)
    (hb : ∀ s ∈ st.allStores, s < k)
    (hbop : ∀ p ∈ st.storeOperations, p.1 < k)
    (hops : opsInvariant st) :
    ∃ stF, interpretStmts env (enumerate k prog) st = some stF := by
  induction prog generalizing k st with
  | nil => exact ⟨st, rfl⟩
  | cons stmt rest ih =>
      obtain ⟨st2, h2, hbop2, hops2⟩ := visitStmt_total henv hsi hb hbop hops
      obtain ⟨hsi2, hb2⟩ := visitStmt_invariants h2 hsi hb
      obtain ⟨stF, hF⟩ := ih hsi2 hb2 hbop2 hops2
      refine ⟨stF, ?_⟩
      have hstep : interpretStmts env (enumerate k (stmt :: rest)) st =
          (match visitStmt env st (k, stmt) with
           | none => none
           | some st1 => interpretStmts env (enumerate (k + 1) rest) st1) := rfl
      rw [hstep, h2]
      exact hF

/-- C9: whenever `knownUnrelated` is reached with two operations whose
lengths obey the discipline the pass maintains — a recorded storage
operation always carries the pseudo-length `@ 1`, and an incoming storage
operation either has no start or carries `@ 1` — it does not hit the
fatal assertion (first conjunct); and a whole run of the pass on any
program of the fragment never aborts (second conjunct), so the assertion
branch is unreachable for operations the pass produces. -/
theorem c9_storage_assertion_unreachable :
    (∀ (env : Env) (op1 op2 : Operation),
      KnowledgeBase.valueIfKnownConstant env pseudoOne = some 1 →
      (op1.location = Location.Storage → op1.length = some pseudoOne) →
      (op2.location = Location.Storage →
        op2.start = none ∨ op2.length = some pseudoOne) →
      knownUnrelated env op1 op2 ≠ none) ∧
    (∀ (flag : Bool) (funSE : String → SideEffects)
      (funCF : String → ControlFlowSideEffects) (prog : List Stmt),
      runPass flag funSE funCF prog ≠ none) := by
  constructor
  · intro env op1 op2 henv hl1 hl2
    obtain ⟨b, hb⟩ := knownUnrelated_isSome henv hl1 hl2
    rw [hb]
    simp
  · intro flag funSE funCF prog
    have henv : KnowledgeBase.valueIfKnownConstant (envOf funSE funCF prog)
        pseudoOne = some 1 := rfl
    have hinit : stateInvariants initialState :=
      ⟨fun _ h => absurd h (List.not_mem_nil _),
       fun _ h => absurd h (List.not_mem_nil _),
       fun _ h => absurd h (List.not_mem_nil _),
       fun _ h => absurd h (List.not_mem_nil _)⟩
    have hb0 : ∀ s ∈ initialState.allStores, s < 0 :=
      fun s h => absurd h (List.not_mem_nil _)
    have hbop0 : ∀ p ∈ initialState.storeOperations, p.1 < 0 :=
      fun p h => absurd h (List.not_mem_nil _)
    have hops0 : opsInvariant initialState :=
      ⟨fun s h => absurd h (List.not_mem_nil _),
       fun s h => absurd h (List.not_mem_nil _)⟩
    obtain ⟨stF, hF⟩ := @interpret_enumerate_total (envOf funSE funCF prog)
      prog 0 initialState henv hinit hb0 hbop0 hops0
    simp only [runPass, hF]
    simp

/-- C9 witness: `knownUnrelated` answers (does not abort) on two concrete
storage operations with both starts present, and a run of the pass on the
SSA store program succeeds. -/
theorem c9_storage_assertion_witness :
    knownUnrelated env0 ⟨.Storage, .Write, some "a", some pseudoOne⟩
      ⟨.Storage, .Read, some "b", some pseudoOne⟩ ≠ none ∧
    runPass true noFunSE noFunCF progSSAStores ≠ none :=
  ⟨c9_storage_assertion_unreachable.1 env0
      ⟨.Storage, .Write, some "a", some pseudoOne⟩
      ⟨.Storage, .Read, some "b", some pseudoOne⟩ rfl
      (fun _ => rfl) (fun _ => Or.inr rfl),
   c9_storage_assertion_unreachable.2 true noFunSE noFunCF progSSAStores⟩

/-- C2: visiting a function call applies the callee's read/write
operations to the active sets first and its control-flow side effects
second: relative to the state `st1` reached after the operations, a
callee that `canTerminate` adds the active storage stores to
`usedStores`; a callee that cannot continue ends with empty active
memory without marking its members used; and one that can neither
continue nor terminate also ends with empty active storage without
marking its members used. -/
theorem c2_call_operations_then_control_flow (env : Env) (c : FunctionCall)
    (st st1 : PassState)
    (h : applyOperationList env (operationsFromFunctionCall env c) st = some st1) :
    visitFunctionCall env c st = some
      { st1 with
        usedStores :=
          if (controlFlowOf env c.functionName).canTerminate then
            insertAll st1.activeStorage st1.usedStores
          else st1.usedStores,
        activeStorage :=
          if (controlFlowOf env c.functionName).canTerminate ||
              !(controlFlowOf env c.functionName).canContinue then []
          else st1.activeStorage,
        activeMemory :=
          if !(controlFlowOf env c.functionName).canContinue then []
          else st1.activeMemory } := by
  unfold visitFunctionCall
  rw [h]
  generalize controlFlowOf env c.functionName = cf
  obtain ⟨cc, ct⟩ := cf
  cases cc <;> cases ct <;>
    simp [applyControlFlow, markActiveAsUsed, clearActive]

/-- C2 witness: a `revert` call over a state holding one active memory
store (statement 7, which the revert's memory read marks used) and one
active storage store (statement 8, cleared without being used). -/
theorem c2_call_witness :
    applyOperationList env0
      (operationsFromFunctionCall env0 ⟨"revert", [.lit 0, .lit 0]⟩)
      ⟨[7], [8], [7, 8], [],
        [(7, ⟨.Memory, .Write, none, none⟩),
         (8, ⟨.Storage, .Write, some "k", some pseudoOne⟩)]⟩ =
      some ⟨[], [8], [7, 8], [7],
        [(7, ⟨.Memory, .Write, none, none⟩),
         (8, ⟨.Storage, .Write, some "k", some pseudoOne⟩)]⟩ ∧
    visitFunctionCall env0 ⟨"revert", [.lit 0, .lit 0]⟩
      ⟨[7], [8], [7, 8], [],
        [(7, ⟨.Memory, .Write, none, none⟩),
         (8, ⟨.Storage, .Write, some "k", some pseudoOne⟩)]⟩ =
      some ⟨[], [], [7, 8], [7],
        [(7, ⟨.Memory, .Write, none, none⟩),
         (8, ⟨.Storage, .Write, some "k", some pseudoOne⟩)]⟩ := by
  constructor
  · rfl
  · rw [c2_call_operations_then_control_flow env0 ⟨"revert", [.lit 0, .lit 0]⟩
      ⟨[7], [8], [7, 8], [],
        [(7, ⟨.Memory, .Write, none, none⟩),
         (8, ⟨.Storage, .Write, some "k", some pseudoOne⟩)]⟩
      ⟨[], [8], [7, 8], [7],
        [(7, ⟨.Memory, .Write, none, none⟩),
         (8, ⟨.Storage, .Write, some "k", some pseudoOne⟩)]⟩ (by rfl)]
    rfl

/-- C3: finalization after the root walk — when the dialect provides
object access the active memory set is cleared (its members gain no
`usedStores` entry and stay removable), otherwise active memory is marked
used; active storage is marked used unconditionally; and the set handed
to the remover is exactly `allStores − usedStores`. -/
theorem c3_finalization (flag : Bool) (funSE : String → SideEffects)
    (funCF : String → ControlFlowSideEffects) (prog : List Stmt)
    (st : PassState)
    (h : interpretStmts (envOf funSE funCF prog) (enumerate 0 prog)
      initialState = some st) :
    runPass flag funSE funCF prog = some
      { st with
        activeMemory := [],
        activeStorage := [],
        usedStores := insertAll st.activeStorage
          (if flag then st.usedStores
           else insertAll st.activeMemory st.usedStores) } ∧
    removedStatements flag funSE funCF prog = some (setMinus st.allStores
      (insertAll st.activeStorage
        (if flag then st.usedStores
         else insertAll st.activeMemory st.usedStores))) := by
  have h1 : runPass flag funSE funCF prog = some
      { st with
        activeMemory := [],
        activeStorage := [],
        usedStores := insertAll st.activeStorage
          (if flag then st.usedStores
           else insertAll st.activeMemory st.usedStores) } := by
    simp only [runPass, h]
    cases flag <;> simp [markActiveAsUsed, clearActive]
  refine ⟨h1, ?_⟩
  unfold removedStatements
  rw [h1]
  rfl

/-- C3 witness: running the pass on `let z := 0 mstore(z, 1) mstore(z, 2)`
without object access: after the walk statement 2 is still active in
memory, finalization marks it used, and only statement 1 is removed. -/
theorem c3_finalization_witness :
    interpretStmts (envOf noFunSE noFunCF (progSSAStores.take 3))
      (enumerate 0 (progSSAStores.take 3)) initialState = some
      ⟨[2], [], [2, 1], [],
        [(2, ⟨.Memory, .Write, some "z", some pseudoThirtyTwo⟩),
         (1, ⟨.Memory, .Write, some "z", some pseudoThirtyTwo⟩)]⟩ ∧
    runPass false noFunSE noFunCF (progSSAStores.take 3) = some
      ⟨[], [], [2, 1], [2],
        [(2, ⟨.Memory, .Write, some "z", some pseudoThirtyTwo⟩),
         (1, ⟨.Memory, .Write, some "z", some pseudoThirtyTwo⟩)]⟩ ∧
    removedStatements false noFunSE noFunCF (progSSAStores.take 3) =
      some [1] := by
  have h := c3_finalization false noFunSE noFunCF (progSSAStores.take 3)
    ⟨[2], [], [2, 1], [],
      [(2, ⟨.Memory, .Write, some "z", some pseudoThirtyTwo⟩),
       (1, ⟨.Memory, .Write, some "z", some pseudoThirtyTwo⟩)]⟩ (by rfl)
  refine ⟨by rfl, ?_, ?_⟩
  · rw [h.1]
    rfl
  · rw [h.2]
    rfl

/-- C6 amended: when neither operation has a length known to be zero,
`knownCovered(a, b)` excludes `knownUnrelated(a, b)` answering `true`
(the original claim fails only for known-zero-length operations). -/
theorem c6_no_zero_length_covered_not_unrelated (env : Env) (a b : Operation)
    (ha : lengthKnownZero env a = false) (hb : lengthKnownZero env b = false)
    (hcov : knownCovered env a b = true) :
    knownUnrelated env a b ≠ some true := by
  intro hunrel
  unfold knownCovered at hcov
  unfold knownUnrelated at hunrel
  by_cases hloc : a.location = b.location
  case neg =>
    rw [if_pos hloc] at hcov
    exact Bool.noConfusion hcov
  rw [if_neg (by simp [hloc])] at hcov
  rw [if_neg (by simp [hloc])] at hunrel
  rcases hla : a.location with _ | _
  · -- memory
    rw [hla] at hcov hunrel
    rw [if_neg (by simp)] at hunrel
    rw [ha, hb] at hunrel
    rw [if_neg (by simp)] at hunrel
    have hdisj := Option.some.inj hunrel
    simp only [Bool.or_eq_true] at hdisj
    cases hsyn : syntacticallyEqualRange a b <;> rw [hsyn] at hcov
    · -- not the syntactic branch: equal-start or constant-range
      rw [if_neg (by simp), if_pos rfl, ha] at hcov
      simp only [Bool.false_or, Bool.or_eq_true] at hcov
      rcases hcov with hceq | hcrange
      · obtain ⟨cs, is, cl, il, A, B, has, hbs, hal, hbl, heq, hA, hB, hAB⟩ :=
          memCoveredEqualStart_inv hceq
        have heqv := knownToBeEqual_inv heq
        have hA0 : A ≠ 0 := length_value_ne_zero ha hal hA
        have hB0 : B ≠ 0 := length_value_ne_zero hb hbl hB
        rcases hdisj with (h1 | h2) | h3
        · obtain ⟨sa, la, sb, S1, L1, S2, hsa, hla2, hsb, hL, hS1, hS2,
            hc1, hc2⟩ := memEndsBefore_inv h1
          rw [has] at hsa
          rw [hal] at hla2
          rw [hbs] at hsb
          cases Option.some.inj hsa
          cases Option.some.inj hla2
          cases Option.some.inj hsb
          rw [hA] at hL
          cases Option.some.inj hL
          have hSeq : S1 = S2 := by
            rcases heqv with rfl | ⟨x, hx1, hx2⟩
            · rw [hS1] at hS2
              exact Option.some.inj hS2
            · rw [hx1] at hS1
              rw [hx2] at hS2
              rw [← Option.some.inj hS1, ← Option.some.inj hS2]
          have hno := no_overflow_sum (valueIfKnownConstant_lt hS1)
            (valueIfKnownConstant_lt hA) hc1
          omega
        · obtain ⟨sb, lb, sa, S2, L2, S1, hsb, hlb2, hsa, hL, hS2, hS1,
            hc1, hc2⟩ := memEndsBefore_inv h2
          rw [hbs] at hsb
          rw [hbl] at hlb2
          rw [has] at hsa
          cases Option.some.inj hsb
          cases Option.some.inj hlb2
          cases Option.some.inj hsa
          rw [hB] at hL
          cases Option.some.inj hL
          have hSeq : S1 = S2 := by
            rcases heqv with rfl | ⟨x, hx1, hx2⟩
            · rw [hS1] at hS2
              exact Option.some.inj hS2
            · rw [hx1] at hS1
              rw [hx2] at hS2
              rw [← Option.some.inj hS1, ← Option.some.inj hS2]
          have hno := no_overflow_sum (valueIfKnownConstant_lt hS2)
            (valueIfKnownConstant_lt hB) hc1
          omega
        · obtain ⟨sa, la, sb, lb, L1, L2, hsa, hla2, hsb, hlb2, hL1, hL2,
            h32a, h32b, hdiff⟩ := memBothSmallFar_inv h3
          rw [has] at hsa
          rw [hbs] at hsb
          cases Option.some.inj hsa
          cases Option.some.inj hsb
          rcases heqv with rfl | ⟨x, hx1, hx2⟩
          · rw [diffByAtLeast32_self] at hdiff
            exact Bool.noConfusion hdiff
          · rw [diffByAtLeast32_near hx1 hx2 le_rfl (by omega)] at hdiff
            exact Bool.noConfusion hdiff
      · obtain ⟨cs, is, cl, il, S1, S2, A, B, has, hbs, hal, hbl, hS1, hS2,
          hA, hB, hc1, hc2, hc3, hc4⟩ := memCoveredConstRange_inv hcrange
        have hA0 : A ≠ 0 := length_value_ne_zero ha hal hA
        have hB0 : B ≠ 0 := length_value_ne_zero hb hbl hB
        have hBsum := no_overflow_sum (valueIfKnownConstant_lt hS2)
          (valueIfKnownConstant_lt hB) hc2
        have hAsum := no_overflow_sum (valueIfKnownConstant_lt hS1)
          (valueIfKnownConstant_lt hA) hc3
        rw [hAsum, hBsum] at hc4
        rcases hdisj with (h1 | h2) | h3
        · obtain ⟨sa, la, sb, S1x, L1, S2x, hsa, hla2, hsb, hL, hS1x, hS2x,
            hd1, hd2⟩ := memEndsBefore_inv h1
          rw [has] at hsa
          rw [hal] at hla2
          rw [hbs] at hsb
          cases Option.some.inj hsa
          cases Option.some.inj hla2
          cases Option.some.inj hsb
          rw [hA] at hL
          cases Option.some.inj hL
          rw [hS1] at hS1x
          cases Option.some.inj hS1x
          rw [hS2] at hS2x
          cases Option.some.inj hS2x
          rw [hAsum] at hd2
          omega
        · obtain ⟨sb, lb, sa, S2x, L2, S1x, hsb, hlb2, hsa, hL, hS2x, hS1x,
            hd1, hd2⟩ := memEndsBefore_inv h2
          rw [hbs] at hsb
          rw [hbl] at hlb2
          rw [has] at hsa
          cases Option.some.inj hsb
          cases Option.some.inj hlb2
          cases Option.some.inj hsa
          rw [hB] at hL
          cases Option.some.inj hL
          rw [hS2] at hS2x
          cases Option.some.inj hS2x
          rw [hS1] at hS1x
          cases Option.some.inj hS1x
          rw [hBsum] at hd2
          omega
        · obtain ⟨sa, la, sb, lb, L1, L2, hsa, hla2, hsb, hlb2, hL1, hL2,
            h32a, h32b, hdiff⟩ := memBothSmallFar_inv h3
          rw [has] at hsa
          rw [hal] at hla2
          rw [hbs] at hsb
          rw [hbl] at hlb2
          cases Option.some.inj hsa
          cases Option.some.inj hla2
          cases Option.some.inj hsb
          cases Option.some.inj hlb2
          rw [hA] at hL1
          cases Option.some.inj hL1
          rw [hB] at hL2
          cases Option.some.inj hL2
          rw [diffByAtLeast32_near hS1 hS2 hc1 (by omega)] at hdiff
          exact Bool.noConfusion hdiff
    · -- the syntactic branch in the memory case
      obtain ⟨s, l, has, hbs, hal, hbl⟩ := syntacticallyEqualRange_inv hsyn
      rcases hdisj with (h1 | h2) | h3
      · obtain ⟨sa, la, sb, S1, L1, S2, hsa, hla2, hsb, hL, hS1, hS2,
          hc1, hc2⟩ := memEndsBefore_inv h1
        rw [has] at hsa
        rw [hal] at hla2
        rw [hbs] at hsb
        cases Option.some.inj hsa
        cases Option.some.inj hla2
        cases Option.some.inj hsb
        rw [hS1] at hS2
        cases Option.some.inj hS2
        have hno := no_overflow_sum (valueIfKnownConstant_lt hS1)
          (valueIfKnownConstant_lt hL) hc1
        have hL0 : L1 ≠ 0 := length_value_ne_zero ha hal hL
        omega
      · obtain ⟨sb, lb, sa, S2, L2, S1, hsb, hlb2, hsa, hL, hS2, hS1,
          hc1, hc2⟩ := memEndsBefore_inv h2
        rw [hbs] at hsb
        rw [hbl] at hlb2
        rw [has] at hsa
        cases Option.some.inj hsb
        cases Option.some.inj hlb2
        cases Option.some.inj hsa
        rw [hS2] at hS1
        cases Option.some.inj hS1
        have hno := no_overflow_sum (valueIfKnownConstant_lt hS2)
          (valueIfKnownConstant_lt hL) hc1
        have hL0 : L2 ≠ 0 := length_value_ne_zero hb hbl hL
        omega
      · obtain ⟨sa, la, sb, lb, L1, L2, hsa, hla2, hsb, hlb2, hL1, hL2,
          h32a, h32b, hdiff⟩ := memBothSmallFar_inv h3
        rw [has] at hsa
        rw [hbs] at hsb
        cases Option.some.inj hsa
        cases Option.some.inj hsb
        rw [diffByAtLeast32_self] at hdiff
        exact Bool.noConfusion hdiff
  · -- storage
    rw [hla] at hcov hunrel
    rw [if_pos rfl] at hunrel
    cases hsyn : syntacticallyEqualRange a b <;> rw [hsyn] at hcov
    · simp at hcov
    · obtain ⟨s, l, has, hbs, hal, hbl⟩ := syntacticallyEqualRange_inv hsyn
      rw [has, hbs] at hunrel
      cases hsl : storageLengthsOne env a b <;>
        simp [hsl, knownToBeDifferent_self] at hunrel

/-- C6 witness: the amended implication at a concrete pair (identical
memory operations with start and length present and length 32). -/
theorem c6_witness :
    lengthKnownZero env0 ⟨.Memory, .Write, some pseudoZero, some pseudoThirtyTwo⟩ = false ∧
    knownCovered env0 ⟨.Memory, .Write, some pseudoZero, some pseudoThirtyTwo⟩
      ⟨.Memory, .Write, some pseudoZero, some pseudoThirtyTwo⟩ = true ∧
    knownUnrelated env0 ⟨.Memory, .Write, some pseudoZero, some pseudoThirtyTwo⟩
      ⟨.Memory, .Write, some pseudoZero, some pseudoThirtyTwo⟩ ≠ some true :=
  ⟨by rfl, by rfl,
    c6_no_zero_length_covered_not_unrelated env0
      ⟨.Memory, .Write, some pseudoZero, some pseudoThirtyTwo⟩
      ⟨.Memory, .Write, some pseudoZero, some pseudoThirtyTwo⟩
      (by rfl) (by rfl) (by rfl)⟩

/-- C10: for two storage operations of which at least one has no start
symbol, `knownUnrelated` returns `false` (the pair is conservatively
treated as may-aliasing); consequently a storage read with an unknown
slot marks every active storage store as used and empties the active
storage set. -/
theorem c10_unknown_storage_start_may_alias :
    (∀ (env : Env) (op1 op2 : Operation), op1.location = .Storage →
      op2.location = .Storage → (op1.start = none ∨ op2.start = none) →
      knownUnrelated env op1 op2 = some false) ∧
    (∀ (env : Env) (op : Operation) (st st2 : PassState),
      op.location = .Storage → op.effect = .Read → op.start = none →
      (∀ s ∈ st.activeStorage, ∃ o, st.storeOperations.lookup s = some o ∧
        o.location = Location.Storage) →
      applyOperation env op st = some st2 →
      st2.activeStorage = [] ∧ ∀ s ∈ st.activeStorage, s ∈ st2.usedStores) := by
  have part1 : ∀ (env : Env) (op1 op2 : Operation), op1.location = .Storage →
      op2.location = .Storage → (op1.start = none ∨ op2.start = none) →
      knownUnrelated env op1 op2 = some false := by
    intro env op1 op2 h1 h2 h3
    unfold knownUnrelated
    rw [h1, h2]
    rw [if_neg (by simp), if_pos rfl]
    rcases hs1 : op1.start with _ | s1
    · rcases hs2 : op2.start with _ | s2 <;> rfl
    · rcases hs2 : op2.start with _ | s2
      · rfl
      · rcases h3 with h3 | h3 <;> simp_all
  refine ⟨part1, ?_⟩
  intro env op st st2 hloc heff hstart hops happ
  have hhit : ∀ s ∈ st.activeStorage,
      applyToStore env op st.storeOperations s = some (true, true) := by
    intro s hs
    obtain ⟨o, hlook, holoc⟩ := hops s hs
    have hunrel := part1 env o op holoc hloc (Or.inr hstart)
    simp [applyToStore, hlook, heff, hunrel]
  simp only [applyOperation, hloc, PassState.active,
    classifyActive_all_hit hhit, Option.some.injEq] at happ
  subst happ
  constructor
  · show setMinus st.activeStorage st.activeStorage = []
    unfold setMinus
    rw [List.filter_eq_nil_iff]
    intro a ha
    simp [ha]
  · intro s hs
    show s ∈ insertAll st.activeStorage st.usedStores
    exact mem_insertAll.mpr (Or.inl hs)

/-- C10 witness: a concrete storage read with unknown slot against a
one-element active storage set. -/
theorem c10_unknown_storage_start_witness :
    knownUnrelated env0 ⟨.Storage, .Write, some "k", some pseudoOne⟩
      ⟨.Storage, .Read, none, none⟩ = some false ∧
    (PassState.mk [] [] [7] [7]
        [(7, ⟨.Storage, .Write, some "k", some pseudoOne⟩)]).activeStorage = [] ∧
    ∀ s ∈ (PassState.mk [] [7] [7] []
        [(7, ⟨.Storage, .Write, some "k", some pseudoOne⟩)]).activeStorage,
      s ∈ (PassState.mk [] [] [7] [7]
        [(7, ⟨.Storage, .Write, some "k", some pseudoOne⟩)]).usedStores := by
  have h2 := c10_unknown_storage_start_may_alias.2 env0
    ⟨.Storage, .Read, none, none⟩
    ⟨[], [7], [7], [], [(7, ⟨.Storage, .Write, some "k", some pseudoOne⟩)]⟩
    ⟨[], [], [7], [7], [(7, ⟨.Storage, .Write, some "k", some pseudoOne⟩)]⟩
    rfl rfl rfl
    (by
      intro s hs
      rcases List.mem_singleton.mp hs
      exact ⟨⟨.Storage, .Write, some "k", some pseudoOne⟩, rfl, rfl⟩)
    (by rfl)
  exact ⟨c10_unknown_storage_start_may_alias.1 env0 _ _ rfl rfl (Or.inr rfl),
    h2.1, h2.2⟩

end UnusedStoreElim
